import Mathlib

/-!
# Zero-suppression blocking and noise injection

A shallow embedding of two services of the detector simulation:

* `LarsoftHuffmanCompressService` (`block`, `compress`): zero suppression of an
  ADC trace into a flat self-describing sequence, with optional entropy coding;
* `ExpoWhiteChannelNoiseService` (`addNoise`, `generateNoise`): noise library
  population and noise injection.

Machine integers are integers with explicit wrap-around: `short` values are
16-bit two's complement (`Cxx.toShort`), `unsigned int` values are taken modulo
`2 ^ 32` (`Cxx.toUInt`).  `AdcCount` is `short`, the element type of the scratch
buffers of `block` that hold samples.  Indexing a `std::vector` outside its
bounds is undefined behaviour in the source and is the result `none` here.
-/

set_option autoImplicit false

/-! ## Machine integers -/

namespace Cxx

/-- Conversion of an integer value to `short` (16 bit, two's complement). -/
def toShort (z : Int) : Int := (z + 32768) % 65536 - 32768

/-- Conversion of a size to `unsigned int` (32 bit). -/
def toUInt (n : Nat) : Nat := n % 4294967296

end Cxx

namespace LarsoftHuffmanCompressService

open Cxx

/-! ## Vectors -/

/-- Write `v[k] = x` on a `std::vector<short>`; `none` when `k` is out of range. -/
def store (v : List Int) (k : Nat) (x : Int) : Option (List Int) :=
  if k < v.length then some (v.set k x) else none

/-- The call `v.resize(n)` on a `std::vector<short>`: the leading elements are
kept, new elements are zero. -/
def resize (v : List Int) (n : Nat) : List Int :=
  v.take n ++ List.replicate (n - v.length) 0

/-! ## `block` -/

/-- Local variables of `block` that change during the scan. -/
structure BlockState where
  zerosuppressed : List Int
  blockbegin : List Int
  blocksize : List Int
  nblocks : Nat
  zerosuppressedsize : Nat
  inblock : Bool
deriving DecidableEq, Repr

/-- Body of the scan loop of `block` at tick `i` (source lines 123-139). -/
def blockStep (sigsin : List Int) (keep : List Bool) (adcsize i : Nat)
    (st : BlockState) : Option BlockState :=
  match keep[i]? with
  | none => none
  | some true =>
    -- if ( ! inblock ) { blockbegin[nblocks] = i; blocksize[nblocks] = 0; inblock = true; }
    (if st.inblock then some st
     else
      (store st.blockbegin st.nblocks (toShort i)).bind fun bb =>
      (store st.blocksize st.nblocks 0).bind fun bs =>
      some { st with blockbegin := bb, blocksize := bs, inblock := true }).bind fun s1 =>
    -- zerosuppressed[zerosuppressedsize] = sigsin[i]; ++zerosuppressedsize;
    sigsin[i]?.bind fun x =>
    (store s1.zerosuppressed s1.zerosuppressedsize x).bind fun zs =>
    -- ++blocksize[nblocks];
    s1.blocksize[s1.nblocks]?.bind fun cur =>
    (store s1.blocksize s1.nblocks (toShort (cur + 1))).bind fun bs =>
    -- if ( i == adcsize-1 ) ++nblocks;
    some { s1 with
      zerosuppressed := zs
      zerosuppressedsize := s1.zerosuppressedsize + 1
      blocksize := bs
      nblocks := if i = toUInt (adcsize + 4294967295) then s1.nblocks + 1 else s1.nblocks }
  | some false =>
    -- else if ( inblock ) { ++nblocks; inblock = false; }
    if st.inblock then some { st with nblocks := st.nblocks + 1, inblock := false }
    else some st

/-- The loop `for ( unsigned int i=...; i<adcsize; ++i )` with `count` iterations
left, the next one at tick `i`. -/
def blockLoop (sigsin : List Int) (keep : List Bool) (adcsize : Nat) :
    Nat → Nat → BlockState → Option BlockState
  | 0, _, st => some st
  | count + 1, i, st =>
    (blockStep sigsin keep adcsize i st).bind
      (blockLoop sigsin keep adcsize count (i + 1))

/-- State of `block` before the scan (source lines 114-121). -/
def blockInit (sigsin : List Int) : BlockState :=
  let adcsize := toUInt sigsin.length
  let maxblocks := adcsize / 2 + 1
  { zerosuppressed := List.replicate sigsin.length 0
    blockbegin := List.replicate maxblocks 0
    blocksize := List.replicate maxblocks 0
    nblocks := 0
    zerosuppressedsize := 0
    inblock := false }

/-- The scan of `block` (source lines 114-140): the state after the loop. -/
def blockScan (sigsin : List Int) (keep : List Bool) : Option BlockState :=
  let adcsize := toUInt sigsin.length
  blockLoop sigsin keep adcsize adcsize 0 (blockInit sigsin)

/-- A copy loop `for ( i=0; i<n; ++i ) dst[i+off] = src[i]` with `count`
iterations left, the next one at index `i`. -/
def copyLoop (src : List Int) (off : Nat) : Nat → Nat → List Int → Option (List Int)
  | 0, _, dst => some dst
  | count + 1, i, dst =>
    src[i]?.bind fun x => (store dst (i + off) x).bind (copyLoop src off count (i + 1))

/-- Assembly of the output of `block` from the scan state (source lines
141-146); `sigsout` is the vector handed in by the caller. -/
def blockWrite (adcsize : Nat) (st : BlockState) (sigsout : List Int) :
    Option (List Int) :=
  let out := resize sigsout (2 + st.nblocks + st.nblocks + st.zerosuppressedsize)
  (store out 0 (toShort adcsize)).bind fun out =>
  (store out 1 (toShort st.nblocks)).bind fun out =>
  (copyLoop st.blockbegin 2 st.nblocks 0 out).bind fun out =>
  (copyLoop st.blocksize (st.nblocks + 2) st.nblocks 0 out).bind fun out =>
  copyLoop st.zerosuppressed (st.nblocks + st.nblocks + 2) st.zerosuppressedsize 0 out

/-- The method `block(sigsin, keep, sigsout)`: the value of `sigsout` on return. -/
def block (sigsout : List Int) (sigsin : List Int) (keep : List Bool) :
    Option (List Int) :=
  (blockScan sigsin keep).bind fun st => blockWrite (toUInt sigsin.length) st sigsout

/-! ## Runs of kept ticks

The scan of `block` seen on lists: the closed blocks, the block still being
filled, and the samples copied so far.  The proofs relate the buffers of
`BlockState` to this view. -/

/-- List view of the scan: closed blocks as `(start, length)`, the content of
the slot of the open block, and the payload. -/
structure RunState where
  closed : List (Nat × Nat)
  cur : Nat × Nat
  payload : List Int
  inblock : Bool
deriving DecidableEq, Repr

/-- One tick of the scan on the list view, for a trace of `n` ticks. -/
def runStep (sigsin : List Int) (keep : List Bool) (n i : Nat) (a : RunState) :
    RunState :=
  if keep.getD i false then
    let cur : Nat × Nat := if a.inblock then (a.cur.1, a.cur.2 + 1) else (i, 1)
    { closed := if i + 1 = n then a.closed ++ [cur] else a.closed
      cur := cur
      payload := a.payload ++ [sigsin.getD i 0]
      inblock := true }
  else if a.inblock then { a with closed := a.closed ++ [a.cur], inblock := false }
  else a

/-- The scan on the list view: `count` ticks from tick `i` on. -/
def runLoop (sigsin : List Int) (keep : List Bool) (n : Nat) :
    Nat → Nat → RunState → RunState
  | 0, _, a => a
  | count + 1, i, a => runLoop sigsin keep n count (i + 1) (runStep sigsin keep n i a)

/-- List view of the state before the scan. -/
def runInit : RunState := { closed := [], cur := (0, 0), payload := [], inblock := false }

/-- Flat layout of a compressed block:
`[uncompressedLength, blockCount, blockStarts..., blockLengths..., payload...]`. -/
def flatLayout (n : Nat) (starts lens : List Nat) (payload : List Int) : List Int :=
  [(n : Int), (starts.length : Int)] ++ starts.map Int.ofNat ++ lens.map Int.ofNat ++ payload

/-- Flat layout of a compressed block as `block` writes it: the length of the
trace and the block count at its head go through the conversion to `short`. -/
def shortLayout (n : Nat) (starts lens : List Nat) (payload : List Int) : List Int :=
  [toShort n, toShort starts.length] ++ starts.map Int.ofNat ++ lens.map Int.ofNat ++ payload

/-- The samples of the trace at the kept ticks, in tick order. -/
def keptSamples (sigsin : List Int) (keep : List Bool) : List Int :=
  ((sigsin.zip keep).filter fun p => p.2).map fun p => p.1

/-- The samples of the trace inside the listed blocks, block by block. -/
def runSamples (sigsin : List Int) : List (Nat × Nat) → List Int
  | [] => []
  | r :: rs => (sigsin.drop r.1).take r.2 ++ runSamples sigsin rs

/-- A block `(start, length)` is a maximal run of kept ticks lying before tick `i`. -/
def IsRun (keep : List Bool) (i : Nat) (r : Nat × Nat) : Prop :=
  1 ≤ r.2 ∧ r.1 + r.2 ≤ i ∧
  (∀ t, r.1 ≤ t → t < r.1 + r.2 → keep.getD t false = true) ∧
  keep.getD (r.1 + r.2) false = false ∧
  (r.1 = 0 ∨ keep.getD (r.1 - 1) false = false)

/-- Invariant of the scan on the list view at tick `i`: shape of the blocks. -/
structure RunShape (keep : List Bool) (n i : Nat) (a : RunState) : Prop where
  closedOK : ∀ r ∈ a.closed, IsRun keep i r
  openOK : a.inblock = true → i < n →
    1 ≤ a.cur.2 ∧ a.cur.1 + a.cur.2 = i ∧
    (∀ t, a.cur.1 ≤ t → t < i → keep.getD t false = true) ∧
    (a.cur.1 = 0 ∨ keep.getD (a.cur.1 - 1) false = false) ∧
    ∀ r ∈ a.closed, r.1 + r.2 < a.cur.1
  idle : a.inblock = false →
    (i = 0 ∨ keep.getD (i - 1) false = false) ∧ ∀ r ∈ a.closed, r.1 + r.2 < i
  sep : a.closed.Pairwise fun r r' => r.1 + r.2 < r'.1
  cover : ∀ t, t < i → keep.getD t false = true →
    (∃ r ∈ a.closed, r.1 ≤ t ∧ t < r.1 + r.2) ∨ (a.inblock = true ∧ i < n ∧ a.cur.1 ≤ t)

/-- Invariant of the scan on the list view at tick `i`: content of the payload. -/
structure RunPay (sigsin : List Int) (keep : List Bool) (n i : Nat) (a : RunState) : Prop where
  pay : a.payload =
    runSamples sigsin (a.closed ++ if a.inblock = true ∧ i < n then [a.cur] else [])
  kept : a.payload = keptSamples (sigsin.take i) (keep.take i)

/-- Invariant of the scan of `block` at tick `i`: buffer sizes and counters. -/
structure Bounds (sigsin : List Int) (adcsize i : Nat) (st : BlockState) : Prop where
  zs : st.zerosuppressed.length = sigsin.length
  bb : st.blockbegin.length = adcsize / 2 + 1
  bs : st.blocksize.length = adcsize / 2 + 1
  zsize : st.zerosuppressedsize ≤ i
  cnt : i < adcsize → 2 * st.nblocks + (if st.inblock = true then 1 else 0) ≤ i
  fin : 2 * st.nblocks ≤ i + 1

/-- The buffers of `block` at tick `i` hold the list view `a`. -/
structure Sim (adcsize i : Nat) (st : BlockState) (a : RunState) : Prop where
  nb : st.nblocks = a.closed.length
  zsz : st.zerosuppressedsize = a.payload.length
  inb : st.inblock = a.inblock
  begins : st.blockbegin.take st.nblocks = a.closed.map fun r => toShort r.1
  sizes : st.blocksize.take st.nblocks = a.closed.map fun r => toShort r.2
  samples : st.zerosuppressed.take st.zerosuppressedsize = a.payload
  slot : a.inblock = true → i < adcsize →
    st.blockbegin[st.nblocks]? = some (toShort a.cur.1) ∧
    st.blocksize[st.nblocks]? = some (toShort a.cur.2)

/-! ## Decoding

The decoder is not part of the service; it is the reader the layout is made
for, written after the description of the matching unblock operation. -/

/-- Modelled from the spec: the copy of the samples `xs` of one block to the
positions `pos`, `pos + 1`, ... of the trace. -/
def writeBlock (trace : List Int) (pos : Nat) : List Int → List Int
  | [] => trace
  | x :: xs => writeBlock (trace.set pos x) (pos + 1) xs

/-- Modelled from the spec: the copy of the payload block by block, sample `j`
of block `i` going to position `blockStarts[i] + j`. -/
def unblockCopy (trace : List Int) : List Int → List Int → List Int → List Int
  | s :: starts, l :: lens, payload =>
    unblockCopy (writeBlock trace s.toNat (payload.take l.toNat)) starts lens
      (payload.drop l.toNat)
  | _, _, _ => trace

/-- Modelled from the spec: the unblock operation matching `block`, which the
sources do not contain.  It reads the uncompressed length `n` and the block
count `B` from the first two entries, then the `B` starts and the `B` lengths,
and copies the payload block by block into a zero-filled trace of length `n`. -/
def unblock (adc : List Int) : List Int :=
  let n := (adc.getD 0 0).toNat
  let nblocks := (adc.getD 1 0).toNat
  unblockCopy (List.replicate n 0) ((adc.drop 2).take nblocks)
    ((adc.drop (2 + nblocks)).take nblocks) (adc.drop (2 + nblocks + nblocks))

/-! ## `compress` -/

/-- Configuration of the service (constructor, source lines 15-17). -/
structure Service where
  m_UseBlock : Bool
  m_UseHuffman : Bool
  m_LogLevel : Int
deriving DecidableEq, Repr

end LarsoftHuffmanCompressService

namespace ExpoWhiteChannelNoiseService

open Cxx

/-! ## Noise service

Floating-point values are elements of an ordered field `α` (the rationals when
run).  Where the result of an operation is rounded to `double` the model
applies the parameter `rnd`; the conversion of a `double` to `AdcSignal` is the
parameter `toSig`.  Exact arithmetic is `rnd = id`. -/

/-- Wire views told apart by the service: `geo::kU`, `geo::kV`, any other. -/
inductive View_t where
  | kU
  | kV
  | kZ
deriving DecidableEq, Repr

/-- Data members of the service. -/
structure Service (α : Type) where
  fNoiseNormZ : α
  fNoiseWidthZ : α
  fLowCutoffZ : α
  fNoiseNormU : α
  fNoiseWidthU : α
  fLowCutoffU : α
  fNoiseNormV : α
  fNoiseWidthV : α
  fLowCutoffV : α
  fNoiseArrayPoints : Nat
  fOldNoiseIndex : Bool
  fNoiseZ : List (List α)
  fNoiseU : List (List α)
  fNoiseV : List (List α)

/-! ### Library population -/

/-- The call `v.resize(n)` on a vector of waveforms: new entries are empty. -/
def resizeLib {α : Type} (lib : List (List α)) (n : Nat) : List (List α) :=
  lib.take n ++ List.replicate (n - lib.length) []

/-- Loop of the constructor (source lines 77-81), `count` iterations left from
index `isam` on.  `shaper norm width cutoff view st` stands for the
five-argument `generateNoise`: it returns the waveform it leaves in its
argument `noise`, whatever that held before, and the state `st` of the random
engine and of the histogram of the view after the call. -/
def populateLoop {α σ : Type} (shaper : α → α → α → View_t → σ → List α × σ) :
    Nat → Nat → Service α × σ → Service α × σ
  | 0, _, r => r
  | count + 1, isam, (s, st) =>
    -- generateNoise(fNoiseNormZ, fNoiseWidthZ, fLowCutoffZ, fNoiseZ[isam], fNoiseHistZ);
    let rZ := shaper s.fNoiseNormZ s.fNoiseWidthZ s.fLowCutoffZ View_t.kZ st
    let s1 := { s with fNoiseZ := s.fNoiseZ.set isam rZ.1 }
    -- generateNoise(fNoiseNormU, fNoiseWidthU, fLowCutoffU, fNoiseU[isam], fNoiseHistU);
    let rU := shaper s.fNoiseNormU s.fNoiseWidthU s.fLowCutoffU View_t.kU rZ.2
    let s2 := { s1 with fNoiseU := s1.fNoiseU.set isam rU.1 }
    -- generateNoise(fNoiseNormV, fNoiseWidthV, fLowCutoffV, fNoiseV[isam], fNoiseHistV);
    let rV := shaper s.fNoiseNormV s.fNoiseWidthV s.fLowCutoffV View_t.kV rU.2
    let s3 := { s2 with fNoiseV := s2.fNoiseV.set isam rV.1 }
    populateLoop shaper count (isam + 1) (s3, rV.2)

/-- Population of the three libraries by the constructor (source lines 54-56
and 77-81). -/
def populate {α σ : Type} (shaper : α → α → α → View_t → σ → List α × σ)
    (svc : Service α) (st : σ) : Service α × σ :=
  populateLoop shaper svc.fNoiseArrayPoints 0
    ({ svc with
        fNoiseZ := resizeLib svc.fNoiseZ svc.fNoiseArrayPoints
        fNoiseU := resizeLib svc.fNoiseU svc.fNoiseArrayPoints
        fNoiseV := resizeLib svc.fNoiseV svc.fNoiseArrayPoints }, st)

/-- Loop of the no-argument `generateNoise` (source lines 262-266): the three
calls of an iteration all write `fNoiseZ[inch]`. -/
def generateNoiseLoop {α σ : Type} (shaper : α → α → α → View_t → σ → List α × σ) :
    Nat → Nat → Service α × σ → Service α × σ
  | 0, _, r => r
  | count + 1, inch, (s, st) =>
    -- generateNoise(fNoiseNormZ, fNoiseWidthZ, fLowCutoffZ, fNoiseZ[inch], fNoiseHistZ);
    let rZ := shaper s.fNoiseNormZ s.fNoiseWidthZ s.fLowCutoffZ View_t.kZ st
    let s1 := { s with fNoiseZ := s.fNoiseZ.set inch rZ.1 }
    -- generateNoise(fNoiseNormU, fNoiseWidthU, fLowCutoffU, fNoiseZ[inch], fNoiseHistU);
    let rU := shaper s.fNoiseNormU s.fNoiseWidthU s.fLowCutoffU View_t.kU rZ.2
    let s2 := { s1 with fNoiseZ := s1.fNoiseZ.set inch rU.1 }
    -- generateNoise(fNoiseNormV, fNoiseWidthV, fLowCutoffV, fNoiseZ[inch], fNoiseHistV);
    let rV := shaper s.fNoiseNormV s.fNoiseWidthV s.fLowCutoffV View_t.kV rU.2
    let s3 := { s2 with fNoiseZ := s2.fNoiseZ.set inch rV.1 }
    generateNoiseLoop shaper count (inch + 1) (s3, rV.2)

/-- The no-argument `generateNoise()` (source lines 258-267). -/
def generateNoise {α σ : Type} (shaper : α → α → α → View_t → σ → List α × σ)
    (svc : Service α) (st : σ) : Service α × σ :=
  generateNoiseLoop shaper svc.fNoiseArrayPoints 0
    ({ svc with
        fNoiseZ := resizeLib svc.fNoiseZ svc.fNoiseArrayPoints
        fNoiseU := resizeLib svc.fNoiseU svc.fNoiseArrayPoints
        fNoiseV := resizeLib svc.fNoiseV svc.fNoiseArrayPoints }, st)

/-! ### `addNoise` -/

/-- The function `nearbyint` in the default rounding mode: the nearest integer,
a tie going to the even one. -/
def nearbyint {α : Type} [LinearOrderedField α] [FloorRing α]
    (x : α) : Int :=
  if x - (⌊x⌋ : α) < 1 / 2 then ⌊x⌋
  else if 1 / 2 < x - (⌊x⌋ : α) then ⌊x⌋ + 1
  else if ⌊x⌋ % 2 = 0 then ⌊x⌋ else ⌊x⌋ + 1

/-- Conversion of a `double` to `unsigned int`: the fraction is dropped. -/
def doubleToUInt {α : Type} [LinearOrderedField α] [FloorRing α]
    (x : α) : Nat := toUInt ⌊x⌋.toNat

/-- Legacy choice of the noise channel (source line 109):
`nearbyint(flat.fire()*(1.*(fNoiseArrayPoints-1)+0.1))`. -/
def oldNoiseIndex {α : Type} [LinearOrderedField α] [FloorRing α]
    (rnd : α → α) (N : Nat) (u : α) : Nat :=
  toUInt (nearbyint (rnd (u *
    rnd (rnd (1 * ((toUInt (N + 4294967295) : Nat) : α)) + rnd (1 / 10))))).toNat

/-- Uniform choice of the noise channel (source lines 111-112):
`noisechan = flat.fire()*fNoiseArrayPoints; if ( noisechan == fNoiseArrayPoints ) --noisechan;`. -/
def newNoiseIndex {α : Type} [LinearOrderedField α] [FloorRing α]
    (rnd : α → α) (N : Nat) (u : α) : Nat :=
  let noisechan := doubleToUInt (rnd (u * (N : α)))
  if noisechan = N then toUInt (noisechan + 4294967295) else noisechan

/-- Choice of the noise channel (source lines 105-113) from the draw `u`. -/
def chooseNoiseChan {α : Type} [LinearOrderedField α] [FloorRing α]
    (rnd : α → α) (svc : Service α) (u : α) : Nat :=
  if svc.fOldNoiseIndex then oldNoiseIndex rnd svc.fNoiseArrayPoints u
  else newNoiseIndex rnd svc.fNoiseArrayPoints u

/-- Failures of `addNoise`: the `cet::exception` for the shaping time, the
`std::out_of_range` of `vector::at`, and an access outside a vector. -/
inductive NoiseError where
  | shapingTime
  | outOfRange
  | undefinedBehaviour
deriving DecidableEq, Repr

/-- The loop adding the library waveform (source lines 117-123), from tick
`itck` on; `none` when `fNoise?[noisechan][itck]` is outside the library. -/
def addLibrary {α : Type} [LinearOrderedField α] [FloorRing α]
    (rnd toSig : α → α) (lib : List (List α)) (noisechan : Nat) :
    Nat → List α → Option (List α)
  | _, [] => some []
  | itck, sig :: sigs =>
    (lib[noisechan]?.bind fun w => w[itck]?).bind fun tnoise =>
    (addLibrary rnd toSig lib noisechan (itck + 1) sigs).map fun rest =>
      toSig (rnd (sig + tnoise)) :: rest

/-- The table `fShapingTimeOrder = { {0.5, 0}, {1.0, 1}, {2.0, 2}, {3.0, 3} }`
and its `find`. -/
def shapingTimeOrder {α : Type} [LinearOrderedField α] [FloorRing α]
    (fShapingTime : α) : Option Nat :=
  if fShapingTime = 1 / 2 then some 0
  else if fShapingTime = 1 then some 1
  else if fShapingTime = 2 then some 2
  else if fShapingTime = 3 then some 3
  else none

/-- The loop over the rows of the noise-factor table (source lines 137-141),
writing `fNoiseFactVec[i]` from row `i` on. -/
def noiseFactLoop {α : Type} [LinearOrderedField α] [FloorRing α]
    (rnd : α → α) (fASICGain : α) (col : Nat) :
    List (List α) → Nat → List α → Except NoiseError (List α)
  | [], _, v => Except.ok v
  | item :: rest, i, v =>
    match item[col]? with
    | none => Except.error NoiseError.outOfRange
    | some x =>
      if i < v.length then
        noiseFactLoop rnd fASICGain col rest (i + 1)
          (v.set i (rnd (x * rnd (fASICGain / rnd (47 / 10)))))
      else Except.error NoiseError.undefinedBehaviour

/-- The loop adding white noise (source lines 161-167), from draw `k` on.
`fire sigma k` is draw `k` of a `RandGaussQ` of mean 0 and deviation `sigma`. -/
def addGauss {α : Type} [LinearOrderedField α] [FloorRing α]
    (rnd toSig : α → α) (fire : α → Nat → α) (view : View_t)
    (sigmaInd sigmaCol : α) : Nat → List α → List α
  | _, [] => []
  | k, sig :: sigs =>
    toSig (rnd (sig + fire (if view = View_t.kU ∨ view = View_t.kV then sigmaInd
      else sigmaCol) k)) :: addGauss rnd toSig fire view sigmaInd sigmaCol (k + 1) sigs

/-- The library read for a channel of the given view (source lines 119-121). -/
def viewLibrary {α : Type} [LinearOrderedField α] [FloorRing α]
    (svc : Service α) (view : View_t) : List (List α) :=
  match view with
  | View_t.kU => svc.fNoiseU
  | View_t.kV => svc.fNoiseV
  | View_t.kZ => svc.fNoiseZ

/-- The method `addNoise(chan, sigs)`: the status returned and the value of
`sigs` on return, or the failure (the value of `sigs` at a failure is not
kept).  `view`, `fASICGain`, `fShapingTime` and `noiseFactVec` are what the
geometry and the signal shaping service give for the channel, `u` is the draw
of `flat.fire()`.  The filling of the histogram `fNoiseChanHist` is left out. -/
def addNoise {α : Type} [LinearOrderedField α] [FloorRing α]
    (rnd toSig : α → α) (svc : Service α) (view : View_t)
    (fASICGain fShapingTime : α) (noiseFactVec : List (List α)) (u : α)
    (fire : α → Nat → α) (sigs : List α) : Except NoiseError (Int × List α) :=
  let noisechan := chooseNoiseChan rnd svc u
  match addLibrary rnd toSig (viewLibrary svc view) noisechan 0 sigs with
  | none => Except.error NoiseError.undefinedBehaviour
  | some sigs1 =>
    match shapingTimeOrder fShapingTime with
    | none => Except.error NoiseError.shapingTime
    | some col =>
      match noiseFactLoop rnd fASICGain col noiseFactVec 0 [0, 0] with
      | Except.error e => Except.error e
      | Except.ok v =>
        Except.ok (0, addGauss rnd toSig fire view (v.getD 0 0) (v.getD 1 0) 0 sigs1)

/-- The service used in the witnesses: ten waveforms of three ticks per view. -/
def demoService : Service ℚ :=
  { fNoiseNormZ := 1, fNoiseWidthZ := 10, fLowCutoffZ := 100
    fNoiseNormU := 2, fNoiseWidthU := 20, fLowCutoffU := 200
    fNoiseNormV := 3, fNoiseWidthV := 30, fLowCutoffV := 300
    fNoiseArrayPoints := 10, fOldNoiseIndex := true
    fNoiseZ := List.replicate 10 [1, 2, 3]
    fNoiseU := List.replicate 10 [4, 5, 6]
    fNoiseV := List.replicate 10 [7, 8, 9] }

end ExpoWhiteChannelNoiseService

/-! # Theorems -/

namespace Cxx

theorem toShort_succ (z : Int) : toShort (toShort z + 1) = toShort (z + 1) := by
  unfold toShort; omega

theorem toShort_of_small (z : Int) (h0 : 0 ≤ z) (h1 : z ≤ 32767) : toShort z = z := by
  unfold toShort; omega

theorem toUInt_last (adcsize : Nat) (h0 : 0 < adcsize) (h1 : adcsize < 4294967296) :
    toUInt (adcsize + 4294967295) = adcsize - 1 := by
  unfold toUInt; omega

theorem toUInt_lt (n : Nat) : toUInt n < 4294967296 := by unfold toUInt; omega

theorem toUInt_le (n : Nat) : toUInt n ≤ n := by unfold toUInt; exact Nat.mod_le _ _

theorem toUInt_of_lt (n : Nat) (h : n < 4294967296) : toUInt n = n := by
  unfold toUInt; omega

end Cxx

namespace LarsoftHuffmanCompressService

open Cxx

theorem take_set_self (v : List Int) (k : Nat) (x : Int) :
    (v.set k x).take k = v.take k := by
  rw [List.set_eq_take_append_cons_drop]
  split
  · rw [List.take_append_of_le_length (by simp; omega)]
    simp
  · rfl

theorem take_succ_of_getElem? (v : List Int) (k : Nat) (x : Int) (h : v[k]? = some x) :
    v.take (k + 1) = v.take k ++ [x] := by
  rw [List.take_succ, h]; rfl

theorem take_succ_set (v : List Int) (k : Nat) (x : Int) (h : k < v.length) :
    (v.set k x).take (k + 1) = v.take k ++ [x] := by
  rw [take_succ_of_getElem? _ k x (by simp [h]), take_set_self]

theorem blockStep_drop_out (sigsin : List Int) (keep : List Bool) (adcsize i : Nat)
    (st : BlockState) (hk : keep[i]? = some false) (hin : st.inblock = false) :
    blockStep sigsin keep adcsize i st = some st := by
  simp [blockStep, hk, hin]

theorem blockStep_drop_in (sigsin : List Int) (keep : List Bool) (adcsize i : Nat)
    (st : BlockState) (hk : keep[i]? = some false) (hin : st.inblock = true) :
    blockStep sigsin keep adcsize i st =
      some { st with nblocks := st.nblocks + 1, inblock := false } := by
  simp [blockStep, hk, hin]

theorem blockStep_keep_in (sigsin : List Int) (keep : List Bool) (adcsize i : Nat)
    (st : BlockState) (x c : Int) (hk : keep[i]? = some true) (hin : st.inblock = true)
    (hx : sigsin[i]? = some x) (hz : st.zerosuppressedsize < st.zerosuppressed.length)
    (hc : st.blocksize[st.nblocks]? = some c) :
    blockStep sigsin keep adcsize i st =
      some { st with
        zerosuppressed := st.zerosuppressed.set st.zerosuppressedsize x
        zerosuppressedsize := st.zerosuppressedsize + 1
        blocksize := st.blocksize.set st.nblocks (toShort (c + 1))
        nblocks := if i = toUInt (adcsize + 4294967295) then st.nblocks + 1
          else st.nblocks } := by
  have hlt : st.nblocks < st.blocksize.length := by
    by_contra h
    rw [List.getElem?_eq_none (by omega)] at hc
    exact Option.noConfusion hc
  simp [blockStep, hk, hin, hx, hc, store, hz, hlt]

theorem blockStep_keep_out (sigsin : List Int) (keep : List Bool) (adcsize i : Nat)
    (st : BlockState) (x : Int) (hk : keep[i]? = some true) (hin : st.inblock = false)
    (hx : sigsin[i]? = some x) (hz : st.zerosuppressedsize < st.zerosuppressed.length)
    (hb : st.nblocks < st.blockbegin.length) (hc : st.nblocks < st.blocksize.length) :
    blockStep sigsin keep adcsize i st =
      some { st with
        zerosuppressed := st.zerosuppressed.set st.zerosuppressedsize x
        zerosuppressedsize := st.zerosuppressedsize + 1
        blockbegin := st.blockbegin.set st.nblocks (toShort i)
        blocksize := (st.blocksize.set st.nblocks 0).set st.nblocks (toShort (0 + 1))
        inblock := true
        nblocks := if i = toUInt (adcsize + 4294967295) then st.nblocks + 1
          else st.nblocks } := by
  simp [blockStep, hk, hin, hx, store, hz, hb, hc]

theorem runStep_drop_out (sigsin : List Int) (keep : List Bool) (n i : Nat)
    (a : RunState) (hk : keep.getD i false = false) (hin : a.inblock = false) :
    runStep sigsin keep n i a = a := by
  unfold runStep; rw [hk]; simp [hin]

theorem runStep_drop_in (sigsin : List Int) (keep : List Bool) (n i : Nat)
    (a : RunState) (hk : keep.getD i false = false) (hin : a.inblock = true) :
    runStep sigsin keep n i a =
      { a with closed := a.closed ++ [a.cur], inblock := false } := by
  unfold runStep; rw [hk]; simp [hin]

theorem runStep_keep_in (sigsin : List Int) (keep : List Bool) (n i : Nat)
    (a : RunState) (hk : keep.getD i false = true) (hin : a.inblock = true) :
    runStep sigsin keep n i a =
      { closed := if i + 1 = n then a.closed ++ [(a.cur.1, a.cur.2 + 1)] else a.closed
        cur := (a.cur.1, a.cur.2 + 1)
        payload := a.payload ++ [sigsin.getD i 0]
        inblock := true } := by
  unfold runStep; rw [hk]; simp [hin]

theorem runStep_keep_out (sigsin : List Int) (keep : List Bool) (n i : Nat)
    (a : RunState) (hk : keep.getD i false = true) (hin : a.inblock = false) :
    runStep sigsin keep n i a =
      { closed := if i + 1 = n then a.closed ++ [(i, 1)] else a.closed
        cur := (i, 1)
        payload := a.payload ++ [sigsin.getD i 0]
        inblock := true } := by
  unfold runStep; rw [hk]; simp [hin]

theorem blockStep_sim (sigsin : List Int) (keep : List Bool) (adcsize i : Nat)
    (st : BlockState) (a : RunState)
    (hi : i < adcsize) (h32 : adcsize < 4294967296)
    (hk : adcsize ≤ keep.length) (hs : adcsize ≤ sigsin.length)
    (B : Bounds sigsin adcsize i st) (S : Sim adcsize i st a) :
    ∃ st', blockStep sigsin keep adcsize i st = some st' ∧
      Bounds sigsin adcsize (i + 1) st' ∧
      Sim adcsize (i + 1) st' (runStep sigsin keep adcsize i a) := by
  obtain ⟨Bzs, Bbb, Bbs, Bzsize, Bcnt, Bfin⟩ := B
  obtain ⟨Snb, Szsz, Sinb, Sbeg, Ssiz, Ssam, Sslot⟩ := S
  have hki : i < keep.length := by omega
  have hsi : i < sigsin.length := by omega
  have hlast := toUInt_last adcsize (by omega) h32
  have hkeep : keep[i]? = some keep[i] := List.getElem?_eq_getElem hki
  have hkd : keep.getD i false = keep[i] := by simp [List.getD_eq_getElem?_getD, hkeep]
  have hsig : sigsin[i]? = some sigsin[i] := List.getElem?_eq_getElem hsi
  have hsd : sigsin.getD i 0 = sigsin[i] := by simp [List.getD_eq_getElem?_getD, hsig]
  have Bcnt := Bcnt hi
  by_cases hkv : keep[i] = true
  · rw [hkv] at hkeep hkd
    by_cases hin : st.inblock = true
    · have ha : a.inblock = true := by rw [← Sinb, hin]
      obtain ⟨hb1, hb2⟩ := Sslot ha hi
      simp only [hin, if_true] at Bcnt
      rw [blockStep_keep_in sigsin keep adcsize i st _ _ hkeep hin hsig (by omega) hb2,
        runStep_keep_in sigsin keep adcsize i a hkd ha, hlast, hsd]
      have hnb : st.nblocks < st.blocksize.length := by omega
      refine ⟨_, rfl, ⟨by simpa using Bzs, Bbb, by simpa using Bbs, by simp; omega, ?_, ?_⟩, ?_⟩
      · intro h; simp only [hin, if_true]; rw [if_neg (by omega)]; omega
      · dsimp only; split <;> omega
      · by_cases hl : i + 1 = adcsize
        · have hl' : i = adcsize - 1 := by omega
          rw [if_pos hl', if_pos hl]
          refine ⟨by simp [Snb], by simp [Szsz], by simp [hin], ?_, ?_, ?_, fun _ h => by omega⟩
          · show List.take (st.nblocks + 1) st.blockbegin = _
            rw [take_succ_of_getElem? _ _ _ hb1, Sbeg]; simp
          · show List.take (st.nblocks + 1) (st.blocksize.set st.nblocks _) = _
            rw [take_succ_set _ _ _ hnb, Ssiz, toShort_succ]; simp
          · show List.take (st.zerosuppressedsize + 1) (st.zerosuppressed.set _ _) = _
            rw [take_succ_set _ _ _ (by omega), Ssam]
        · have hl' : ¬ i = adcsize - 1 := by omega
          rw [if_neg hl', if_neg hl]
          refine ⟨Snb, by simp [Szsz], by simp [hin], Sbeg, ?_, ?_, fun _ _ => ⟨hb1, ?_⟩⟩
          · show List.take st.nblocks (st.blocksize.set st.nblocks _) = _
            rw [take_set_self, Ssiz]
          · show List.take (st.zerosuppressedsize + 1) (st.zerosuppressed.set _ _) = _
            rw [take_succ_set _ _ _ (by omega), Ssam]
          · show (st.blocksize.set st.nblocks _)[st.nblocks]? = _
            rw [List.getElem?_set_self hnb, toShort_succ]; simp
    · have hin : st.inblock = false := by simpa using hin
      have ha : a.inblock = false := by rw [← Sinb, hin]
      simp [hin] at Bcnt
      have hnb : st.nblocks < st.blocksize.length := by omega
      have hnb' : st.nblocks < st.blockbegin.length := by omega
      rw [blockStep_keep_out sigsin keep adcsize i st _ hkeep hin hsig (by omega) hnb' hnb,
        runStep_keep_out sigsin keep adcsize i a hkd ha, hlast, hsd]
      refine ⟨_, rfl, ⟨by simpa using Bzs, by simpa using Bbb, by simpa using Bbs,
        by simp; omega, ?_, ?_⟩, ?_⟩
      · intro h; dsimp only; rw [if_neg (by omega)]; simp; omega
      · dsimp only; split <;> omega
      · have hone : toShort (0 + 1) = toShort ((1 : Nat) : Int) := rfl
        by_cases hl : i + 1 = adcsize
        · have hl' : i = adcsize - 1 := by omega
          rw [if_pos hl', if_pos hl]
          refine ⟨by simp [Snb], by simp [Szsz], by simp, ?_, ?_, ?_, fun _ h => by omega⟩
          · show List.take (st.nblocks + 1) (st.blockbegin.set _ _) = _
            rw [take_succ_set _ _ _ hnb', Sbeg]; simp
          · show List.take (st.nblocks + 1) ((st.blocksize.set _ _).set st.nblocks _) = _
            rw [take_succ_set _ _ _ (by simpa using hnb), take_set_self, Ssiz, hone]; simp
          · show List.take (st.zerosuppressedsize + 1) (st.zerosuppressed.set _ _) = _
            rw [take_succ_set _ _ _ (by omega), Ssam]
        · have hl' : ¬ i = adcsize - 1 := by omega
          rw [if_neg hl', if_neg hl]
          refine ⟨Snb, by simp [Szsz], by simp, ?_, ?_, ?_, fun _ _ => ⟨?_, ?_⟩⟩
          · show List.take st.nblocks (st.blockbegin.set st.nblocks _) = _
            rw [take_set_self, Sbeg]
          · show List.take st.nblocks ((st.blocksize.set _ _).set st.nblocks _) = _
            rw [take_set_self, take_set_self, Ssiz]
          · show List.take (st.zerosuppressedsize + 1) (st.zerosuppressed.set _ _) = _
            rw [take_succ_set _ _ _ (by omega), Ssam]
          · show (st.blockbegin.set st.nblocks _)[st.nblocks]? = _
            rw [List.getElem?_set_self hnb']
          · show ((st.blocksize.set _ _).set st.nblocks _)[st.nblocks]? = _
            rw [List.getElem?_set_self (by simpa using hnb), hone]
  · have hkv : keep[i] = false := by simpa using hkv
    rw [hkv] at hkeep hkd
    by_cases hin : st.inblock = true
    · have ha : a.inblock = true := by rw [← Sinb, hin]
      obtain ⟨hb1, hb2⟩ := Sslot ha hi
      simp only [hin, if_true] at Bcnt
      rw [blockStep_drop_in sigsin keep adcsize i st hkeep hin,
        runStep_drop_in sigsin keep adcsize i a hkd ha]
      refine ⟨_, rfl, ⟨Bzs, Bbb, Bbs, by simp; omega, fun _ => by simp; omega, by simp; omega⟩,
        ⟨by simp [Snb], Szsz, by simp, ?_, ?_, Ssam, fun h => by simp at h⟩⟩
      · show List.take (st.nblocks + 1) st.blockbegin = _
        rw [take_succ_of_getElem? _ _ _ hb1, Sbeg]; simp
      · show List.take (st.nblocks + 1) st.blocksize = _
        rw [take_succ_of_getElem? _ _ _ hb2, Ssiz]; simp
    · have hin : st.inblock = false := by simpa using hin
      have ha : a.inblock = false := by rw [← Sinb, hin]
      simp [hin] at Bcnt
      rw [blockStep_drop_out sigsin keep adcsize i st hkeep hin,
        runStep_drop_out sigsin keep adcsize i a hkd ha]
      exact ⟨_, rfl, ⟨Bzs, Bbb, Bbs, by omega, fun _ => by simp [hin]; omega, by omega⟩,
        ⟨Snb, Szsz, Sinb, Sbeg, Ssiz, Ssam, fun h => by simp [ha] at h⟩⟩

theorem blockLoop_sim (sigsin : List Int) (keep : List Bool) (adcsize : Nat)
    (h32 : adcsize < 4294967296) (hk : adcsize ≤ keep.length) (hs : adcsize ≤ sigsin.length)
    (count i j : Nat) (st : BlockState) (a : RunState) (hi : i + count = j)
    (hj : j ≤ adcsize)
    (B : Bounds sigsin adcsize i st) (S : Sim adcsize i st a) :
    ∃ st', blockLoop sigsin keep adcsize count i st = some st' ∧
      Bounds sigsin adcsize j st' ∧
      Sim adcsize j st' (runLoop sigsin keep adcsize count i a) := by
  induction count generalizing i st a with
  | zero =>
    have : i = j := by omega
    subst this
    exact ⟨st, rfl, B, S⟩
  | succ count ih =>
    obtain ⟨st1, h1, B1, S1⟩ :=
      blockStep_sim sigsin keep adcsize i st a (by omega) h32 hk hs B S
    obtain ⟨st2, h2, B2, S2⟩ := ih (i + 1) st1 _ (by omega) B1 S1
    exact ⟨st2, by simp [blockLoop, h1, h2], B2, S2⟩

theorem bounds_init (sigsin : List Int) :
    Bounds sigsin (toUInt sigsin.length) 0 (blockInit sigsin) :=
  ⟨by simp [blockInit], by simp [blockInit], by simp [blockInit], by simp [blockInit],
    fun _ => by simp [blockInit], by simp [blockInit]⟩

theorem sim_init (sigsin : List Int) :
    Sim (toUInt sigsin.length) 0 (blockInit sigsin) runInit :=
  ⟨rfl, rfl, rfl, by simp [blockInit, runInit], by simp [blockInit, runInit],
    by simp [blockInit, runInit], fun h => by simp [runInit] at h⟩

/-- The scan never leaves its buffers, and its state is the list view. -/
theorem blockScan_sim (sigsin : List Int) (keep : List Bool)
    (hk : keep.length = sigsin.length) :
    ∃ st, blockScan sigsin keep = some st ∧
      Bounds sigsin (toUInt sigsin.length) (toUInt sigsin.length) st ∧
      Sim (toUInt sigsin.length) (toUInt sigsin.length) st
        (runLoop sigsin keep (toUInt sigsin.length) (toUInt sigsin.length) 0 runInit) := by
  have hle := toUInt_le sigsin.length
  exact blockLoop_sim sigsin keep _ (toUInt_lt _) (by omega) hle _ 0 _ _ _ (by omega)
    (Nat.le_refl _) (bounds_init sigsin) (sim_init sigsin)

theorem copyLoop_eq (src : List Int) (off count : Nat) :
    ∀ (i : Nat) (pre mid post : List Int), pre.length = i + off → mid.length = count →
      i + count ≤ src.length →
      copyLoop src off count i (pre ++ mid ++ post) =
        some (pre ++ (src.drop i).take count ++ post) := by
  induction count with
  | zero =>
    intro i pre mid post _ hm _
    have : mid = [] := List.length_eq_zero.mp hm
    simp [copyLoop, this]
  | succ count ih =>
    intro i pre mid post hp hm hs
    match mid, hm with
    | m :: mid, hm =>
      have hx : src[i]? = some src[i] := List.getElem?_eq_getElem (by omega)
      have hset : (pre ++ m :: mid ++ post).set (i + off) src[i] =
          (pre ++ [src[i]]) ++ mid ++ post := by
        rw [← hp]
        simp [List.set_append]
      have hd : (src.drop i).take (count + 1) = src[i] :: (src.drop (i + 1)).take count := by
        rw [List.drop_eq_getElem_cons (by omega : i < src.length), List.take_succ_cons]
      simp only [copyLoop, hx, Option.some_bind, store]
      rw [if_pos (by simp; omega), Option.some_bind, hset,
        ih (i + 1) (pre ++ [src[i]]) mid post (by simp; omega) (by simpa using hm) (by omega), hd]
      simp

theorem set_zero_one (l : List Int) (a b : Int) (h : 2 ≤ l.length) :
    (l.set 0 a).set 1 b = a :: b :: l.drop 2 := by
  match l, h with
  | x :: y :: l, _ => simp

theorem resize_length (v : List Int) (n : Nat) : (resize v n).length = n := by
  simp [resize]; omega

theorem blockWrite_eq (adcsize : Nat) (st : BlockState) (sigsout : List Int)
    (hb : st.nblocks ≤ st.blockbegin.length) (hs : st.nblocks ≤ st.blocksize.length)
    (hz : st.zerosuppressedsize ≤ st.zerosuppressed.length) :
    blockWrite adcsize st sigsout =
      some ([toShort adcsize, toShort st.nblocks] ++ st.blockbegin.take st.nblocks ++
        st.blocksize.take st.nblocks ++ st.zerosuppressed.take st.zerosuppressedsize) := by
  unfold blockWrite
  have hl := resize_length sigsout (2 + st.nblocks + st.nblocks + st.zerosuppressedsize)
  generalize resize sigsout (2 + st.nblocks + st.nblocks + st.zerosuppressedsize) = out at hl
  simp only [store]
  rw [if_pos (by omega), Option.some_bind, if_pos (by simp; omega), Option.some_bind,
    set_zero_one _ _ _ (by omega)]
  generalize hr : out.drop 2 = rest
  have hrl : rest.length = st.nblocks + st.nblocks + st.zerosuppressedsize := by
    rw [← hr]; simp; omega
  have hsplit : rest = rest.take st.nblocks ++ (rest.drop st.nblocks).take st.nblocks ++
      rest.drop (st.nblocks + st.nblocks) := by
    rw [List.append_assoc, ← List.drop_drop, List.take_append_drop, List.take_append_drop]
  generalize hX : rest.take st.nblocks = X at hsplit
  generalize hY : (rest.drop st.nblocks).take st.nblocks = Y at hsplit
  generalize hZ : rest.drop (st.nblocks + st.nblocks) = Z at hsplit
  have hXl : X.length = st.nblocks := by rw [← hX]; simp; omega
  have hYl : Y.length = st.nblocks := by rw [← hY]; simp; omega
  have hZl : Z.length = st.zerosuppressedsize := by rw [← hZ]; simp; omega
  rw [hsplit]
  have e1 : toShort adcsize :: toShort st.nblocks :: (X ++ Y ++ Z) =
      [toShort adcsize, toShort st.nblocks] ++ X ++ (Y ++ Z) := by simp
  rw [e1, copyLoop_eq st.blockbegin 2 st.nblocks 0 _ X (Y ++ Z) (by simp) hXl (by omega),
    Option.some_bind]
  have e2 : [toShort adcsize, toShort st.nblocks] ++ List.take st.nblocks (List.drop 0 st.blockbegin)
      ++ (Y ++ Z) =
      ([toShort adcsize, toShort st.nblocks] ++ List.take st.nblocks st.blockbegin) ++ Y ++ Z := by
    simp
  rw [e2, copyLoop_eq st.blocksize (st.nblocks + 2) st.nblocks 0 _ Y Z (by simp; omega) hYl
    (by omega), Option.some_bind]
  have e3 : [toShort adcsize, toShort st.nblocks] ++ List.take st.nblocks st.blockbegin ++
      List.take st.nblocks (List.drop 0 st.blocksize) ++ Z =
      ([toShort adcsize, toShort st.nblocks] ++ List.take st.nblocks st.blockbegin ++
      List.take st.nblocks st.blocksize) ++ Z ++ [] := by
    simp
  rw [e3, copyLoop_eq st.zerosuppressed (st.nblocks + st.nblocks + 2) st.zerosuppressedsize 0 _ Z []
    (by simp; omega) hZl (by omega)]
  simp

/-- Output of `block` in terms of the list view of the scan. -/
theorem block_eq_runs (sigsout sigsin : List Int) (keep : List Bool)
    (hk : keep.length = sigsin.length) :
    block sigsout sigsin keep =
      some ([toShort (toUInt sigsin.length),
          toShort (runLoop sigsin keep (toUInt sigsin.length) (toUInt sigsin.length) 0
            runInit).closed.length] ++
        (runLoop sigsin keep (toUInt sigsin.length) (toUInt sigsin.length) 0
            runInit).closed.map (fun r => toShort r.1) ++
        (runLoop sigsin keep (toUInt sigsin.length) (toUInt sigsin.length) 0
            runInit).closed.map (fun r => toShort r.2) ++
        (runLoop sigsin keep (toUInt sigsin.length) (toUInt sigsin.length) 0
            runInit).payload) := by
  obtain ⟨st, h1, B, S⟩ := blockScan_sim sigsin keep hk
  have hle := toUInt_le sigsin.length
  have hfin := B.fin
  unfold block
  rw [h1, Option.some_bind, blockWrite_eq _ _ _ (by rw [B.bb]; omega) (by rw [B.bs]; omega)
    (by rw [B.zs]; have := B.zsize; omega), S.begins, S.sizes, S.samples, S.nb]

theorem IsRun.mono {keep : List Bool} {i j : Nat} {r : Nat × Nat} (h : IsRun keep i r)
    (hij : i ≤ j) : IsRun keep j r :=
  ⟨h.1, by have := h.2.1; omega, h.2.2⟩

theorem getD_length (keep : List Bool) : keep.getD keep.length false = false := by
  simp [List.getD_eq_getElem?_getD]

theorem runStep_shape (sigsin : List Int) (keep : List Bool) (i : Nat) (a : RunState)
    (hi : i < keep.length) (S : RunShape keep keep.length i a) :
    RunShape keep keep.length (i + 1) (runStep sigsin keep keep.length i a) := by
  obtain ⟨hc, ho, hidle, hsep, hcov⟩ := S
  have hcm : ∀ r ∈ a.closed, IsRun keep (i + 1) r := fun r hr => (hc r hr).mono (by omega)
  by_cases hk : keep.getD i false = true
  · by_cases hin : a.inblock = true
    · obtain ⟨o1, o2, o3, o4, o5⟩ := ho hin hi
      rw [runStep_keep_in sigsin keep _ i a hk hin]
      have o3' : ∀ t, a.cur.1 ≤ t → t < a.cur.1 + (a.cur.2 + 1) → keep.getD t false = true := by
        intro t h1 h2
        by_cases ht : t = i
        · rw [ht]; exact hk
        · exact o3 t h1 (by omega)
      by_cases hl : i + 1 = keep.length
      · rw [if_pos hl]
        have hnew : IsRun keep (i + 1) (a.cur.1, a.cur.2 + 1) :=
          ⟨by simp, by simp; omega, o3', by
            show keep.getD (a.cur.1 + (a.cur.2 + 1)) false = false
            rw [show a.cur.1 + (a.cur.2 + 1) = keep.length by omega]; exact getD_length keep, o4⟩
        refine ⟨?_, fun _ h => by omega, fun h => by simp at h, ?_, ?_⟩
        · intro r hr
          rcases List.mem_append.mp hr with h | h
          · exact hcm r h
          · rw [List.mem_singleton.mp h]; exact hnew
        · rw [List.pairwise_append]
          refine ⟨hsep, List.pairwise_singleton _ _, ?_⟩
          intro r hr r' hr'
          rw [List.mem_singleton.mp hr']
          exact o5 r hr
        · intro t ht hkt
          left
          by_cases hti : t = i
          · exact ⟨_, List.mem_append_right _ (List.mem_singleton.mpr rfl), by
              show a.cur.1 ≤ t; omega, by show t < a.cur.1 + (a.cur.2 + 1); omega⟩
          · rcases hcov t (by omega) hkt with ⟨r, hr, h⟩ | ⟨_, _, h⟩
            · exact ⟨r, List.mem_append_left _ hr, h⟩
            · exact ⟨_, List.mem_append_right _ (List.mem_singleton.mpr rfl), h, by
                show t < a.cur.1 + (a.cur.2 + 1); omega⟩
      · rw [if_neg hl]
        refine ⟨hcm, fun _ _ => ⟨by simp, by simp; omega, ?_, o4, o5⟩, fun h => by simp at h,
          hsep, ?_⟩
        · intro t h1 h2
          exact o3' t h1 (by show t < a.cur.1 + (a.cur.2 + 1); omega)
        · intro t ht hkt
          by_cases hti : t = i
          · right; exact ⟨rfl, by omega, by show a.cur.1 ≤ t; omega⟩
          · rcases hcov t (by omega) hkt with h | ⟨_, _, h⟩
            · left; exact h
            · right; exact ⟨rfl, by omega, h⟩
    · have hin : a.inblock = false := by simpa using hin
      obtain ⟨i1, i2⟩ := hidle hin
      rw [runStep_keep_out sigsin keep _ i a hk hin]
      have hno : ∀ t, t < i → keep.getD t false = true →
          ∃ r ∈ a.closed, r.1 ≤ t ∧ t < r.1 + r.2 := by
        intro t ht hkt
        rcases hcov t ht hkt with h | ⟨h, _, _⟩
        · exact h
        · rw [hin] at h; exact absurd h (by simp)
      by_cases hl : i + 1 = keep.length
      · rw [if_pos hl]
        have hnew : IsRun keep (i + 1) (i, 1) :=
          ⟨by simp, by simp, by intro t h1 h2; rw [show t = i by simp at h1 h2; omega]; exact hk,
            by show keep.getD (i + 1) false = false; rw [hl]; exact getD_length keep, i1⟩
        refine ⟨?_, fun _ h => by omega, fun h => by simp at h, ?_, ?_⟩
        · intro r hr
          rcases List.mem_append.mp hr with h | h
          · exact hcm r h
          · rw [List.mem_singleton.mp h]; exact hnew
        · rw [List.pairwise_append]
          refine ⟨hsep, List.pairwise_singleton _ _, ?_⟩
          intro r hr r' hr'
          rw [List.mem_singleton.mp hr']
          exact i2 r hr
        · intro t ht hkt
          left
          by_cases hti : t = i
          · exact ⟨_, List.mem_append_right _ (List.mem_singleton.mpr rfl), by
              show i ≤ t; omega, by show t < i + 1; omega⟩
          · obtain ⟨r, hr, h⟩ := hno t (by omega) hkt
            exact ⟨r, List.mem_append_left _ hr, h⟩
      · rw [if_neg hl]
        refine ⟨hcm, fun _ _ => ⟨by simp, by simp, ?_, i1, i2⟩, fun h => by simp at h,
          hsep, ?_⟩
        · intro t h1 h2
          rw [show t = i by simp at h1 h2; omega]; exact hk
        · intro t ht hkt
          by_cases hti : t = i
          · right; exact ⟨rfl, by omega, by show i ≤ t; omega⟩
          · left; exact hno t (by omega) hkt
  · have hk : keep.getD i false = false := by simpa using hk
    by_cases hin : a.inblock = true
    · obtain ⟨o1, o2, o3, o4, o5⟩ := ho hin hi
      rw [runStep_drop_in sigsin keep _ i a hk hin]
      have hnew : IsRun keep (i + 1) a.cur :=
        ⟨o1, by omega, fun t h1 h2 => o3 t h1 (by omega), by rw [o2]; exact hk, o4⟩
      refine ⟨?_, fun h => by simp at h, fun _ => ⟨Or.inr (by simpa using hk), ?_⟩, ?_, ?_⟩
      · intro r hr
        rcases List.mem_append.mp hr with h | h
        · exact hcm r h
        · rw [List.mem_singleton.mp h]; exact hnew
      · intro r hr
        rcases List.mem_append.mp hr with h | h
        · have := o5 r h; omega
        · rw [List.mem_singleton.mp h]; omega
      · rw [List.pairwise_append]
        refine ⟨hsep, List.pairwise_singleton _ _, ?_⟩
        intro r hr r' hr'
        rw [List.mem_singleton.mp hr']
        exact o5 r hr
      · intro t ht hkt
        left
        have hti : t ≠ i := by intro h; rw [h, hk] at hkt; exact absurd hkt (by simp)
        rcases hcov t (by omega) hkt with ⟨r, hr, h⟩ | ⟨_, _, h⟩
        · exact ⟨r, List.mem_append_left _ hr, h⟩
        · exact ⟨_, List.mem_append_right _ (List.mem_singleton.mpr rfl), h, by omega⟩
    · have hin : a.inblock = false := by simpa using hin
      obtain ⟨i1, i2⟩ := hidle hin
      rw [runStep_drop_out sigsin keep _ i a hk hin]
      refine ⟨hcm, fun h => by rw [hin] at h; exact absurd h (by simp),
        fun _ => ⟨Or.inr (by simpa using hk), fun r hr => by have := i2 r hr; omega⟩, hsep, ?_⟩
      intro t ht hkt
      have hti : t ≠ i := by intro h; rw [h, hk] at hkt; exact absurd hkt (by simp)
      rcases hcov t (by omega) hkt with h | ⟨h, _, _⟩
      · left; exact h
      · rw [hin] at h; exact absurd h (by simp)

theorem runSamples_append (sigsin : List Int) (rs rs' : List (Nat × Nat)) :
    runSamples sigsin (rs ++ rs') = runSamples sigsin rs ++ runSamples sigsin rs' := by
  induction rs with
  | nil => rfl
  | cons r rs ih => simp [runSamples, ih]

theorem runSamples_single (sigsin : List Int) (r : Nat × Nat) :
    runSamples sigsin [r] = (sigsin.drop r.1).take r.2 := by
  simp [runSamples]

theorem slice_succ (sigsin : List Int) (s l : Nat) (h : s + l < sigsin.length) :
    (sigsin.drop s).take (l + 1) = (sigsin.drop s).take l ++ [sigsin.getD (s + l) 0] := by
  rw [List.take_succ, List.getElem?_drop, List.getD_eq_getElem?_getD,
    List.getElem?_eq_getElem h]
  rfl

theorem keptSamples_succ (sigsin : List Int) (keep : List Bool) (i : Nat)
    (hs : i < sigsin.length) (hk : i < keep.length) :
    keptSamples (sigsin.take (i + 1)) (keep.take (i + 1)) =
      keptSamples (sigsin.take i) (keep.take i) ++
        if keep.getD i false = true then [sigsin.getD i 0] else [] := by
  have e1 : sigsin.take (i + 1) = sigsin.take i ++ [sigsin.getD i 0] := by
    rw [List.take_succ, List.getD_eq_getElem?_getD, List.getElem?_eq_getElem hs]; rfl
  have e2 : keep.take (i + 1) = keep.take i ++ [keep.getD i false] := by
    rw [List.take_succ, List.getD_eq_getElem?_getD, List.getElem?_eq_getElem hk]; rfl
  unfold keptSamples
  rw [e1, e2, List.zip_append (by simp; omega), List.filter_append, List.map_append]
  congr 1
  generalize keep.getD i false = b
  cases b <;> simp

theorem runStep_pay (sigsin : List Int) (keep : List Bool) (i : Nat) (a : RunState)
    (hn : keep.length = sigsin.length)
    (hi : i < keep.length) (S : RunShape keep keep.length i a)
    (P : RunPay sigsin keep keep.length i a) :
    RunPay sigsin keep keep.length (i + 1) (runStep sigsin keep keep.length i a) := by
  obtain ⟨hpay, hkept⟩ := P
  have hks := keptSamples_succ sigsin keep i (by omega) hi
  by_cases hk : keep.getD i false = true
  · rw [hk, if_pos rfl] at hks
    by_cases hin : a.inblock = true
    · obtain ⟨o1, o2, -, -, -⟩ := S.openOK hin hi
      rw [runStep_keep_in sigsin keep _ i a hk hin]
      rw [if_pos ⟨hin, hi⟩, runSamples_append, runSamples_single] at hpay
      refine ⟨?_, by rw [hks, ← hkept]⟩
      show a.payload ++ [sigsin.getD i 0] = _
      have hsl := slice_succ sigsin a.cur.1 a.cur.2 (by omega)
      rw [o2] at hsl
      by_cases hl : i + 1 = keep.length
      · rw [if_pos hl, if_neg (by omega), List.append_nil, runSamples_append,
          runSamples_single, hsl, ← List.append_assoc, ← hpay]
      · rw [if_neg hl, if_pos ⟨rfl, by omega⟩, runSamples_append,
          runSamples_single, hsl, ← List.append_assoc, ← hpay]
    · have hin : a.inblock = false := by simpa using hin
      rw [runStep_keep_out sigsin keep _ i a hk hin]
      rw [if_neg (by simp [hin]), List.append_nil] at hpay
      refine ⟨?_, by rw [hks, ← hkept]⟩
      show a.payload ++ [sigsin.getD i 0] = _
      have hsl := slice_succ sigsin i 0 (by omega)
      simp only [List.take_zero, List.nil_append, Nat.add_zero, Nat.zero_add] at hsl
      by_cases hl : i + 1 = keep.length
      · rw [if_pos hl, if_neg (by omega), List.append_nil, runSamples_append,
          runSamples_single, hsl, ← hpay]
      · rw [if_neg hl, if_pos ⟨rfl, by omega⟩, runSamples_append,
          runSamples_single, hsl, ← hpay]
  · have hk : keep.getD i false = false := by simpa using hk
    rw [hk, if_neg (by simp), List.append_nil] at hks
    by_cases hin : a.inblock = true
    · rw [runStep_drop_in sigsin keep _ i a hk hin]
      rw [if_pos ⟨hin, hi⟩] at hpay
      refine ⟨?_, by rw [hks, ← hkept]⟩
      show a.payload = _
      rw [if_neg (by simp), List.append_nil, hpay]
    · have hin : a.inblock = false := by simpa using hin
      rw [runStep_drop_out sigsin keep _ i a hk hin]
      rw [if_neg (by simp [hin])] at hpay
      refine ⟨?_, by rw [hks, ← hkept]⟩
      rw [if_neg (by simp [hin]), hpay]

theorem runLoop_inv (sigsin : List Int) (keep : List Bool) (hn : keep.length = sigsin.length)
    (count i : Nat) (a : RunState) (hi : i + count = keep.length)
    (S : RunShape keep keep.length i a) (P : RunPay sigsin keep keep.length i a) :
    RunShape keep keep.length keep.length (runLoop sigsin keep keep.length count i a) ∧
    RunPay sigsin keep keep.length keep.length (runLoop sigsin keep keep.length count i a) := by
  induction count generalizing i a with
  | zero =>
    have : i = keep.length := by omega
    rw [this] at S P
    exact ⟨S, P⟩
  | succ count ih =>
    exact ih (i + 1) _ (by omega) (runStep_shape sigsin keep i a (by omega) S)
      (runStep_pay sigsin keep i a hn (by omega) S P)

theorem runInit_shape (keep : List Bool) : RunShape keep keep.length 0 runInit :=
  ⟨fun r hr => by simp [runInit] at hr, fun h => by simp [runInit] at h,
    fun _ => ⟨Or.inl rfl, fun r hr => by simp [runInit] at hr⟩, by simp [runInit],
    fun t ht => by omega⟩

theorem runInit_pay (sigsin : List Int) (keep : List Bool) :
    RunPay sigsin keep keep.length 0 runInit :=
  ⟨by simp [runInit, runSamples], by simp [runInit, keptSamples]⟩

/-- The blocks found by the scan are the maximal runs of kept ticks. -/
theorem runs_final (sigsin : List Int) (keep : List Bool) (hn : keep.length = sigsin.length) :
    (∀ r ∈ (runLoop sigsin keep keep.length keep.length 0 runInit).closed,
      IsRun keep keep.length r) ∧
    (runLoop sigsin keep keep.length keep.length 0 runInit).closed.Pairwise
      (fun r r' => r.1 + r.2 < r'.1) ∧
    (∀ t, t < keep.length → keep.getD t false = true →
      ∃ r ∈ (runLoop sigsin keep keep.length keep.length 0 runInit).closed,
        r.1 ≤ t ∧ t < r.1 + r.2) ∧
    (runLoop sigsin keep keep.length keep.length 0 runInit).payload =
      runSamples sigsin (runLoop sigsin keep keep.length keep.length 0 runInit).closed ∧
    (runLoop sigsin keep keep.length keep.length 0 runInit).payload =
      keptSamples sigsin keep := by
  obtain ⟨S, P⟩ := runLoop_inv sigsin keep hn keep.length 0 runInit (by omega)
    (runInit_shape keep) (runInit_pay sigsin keep)
  refine ⟨S.closedOK, S.sep, ?_, ?_, ?_⟩
  · intro t ht hk
    rcases S.cover t ht hk with h | ⟨_, h, _⟩
    · exact h
    · omega
  · have := P.pay
    rwa [if_neg (by omega), List.append_nil] at this
  · have := P.kept
    rw [List.take_length, List.take_of_length_le (by omega)] at this
    exact this

theorem getD_true_iff (keep : List Bool) (t : Nat) :
    keep.getD t false = true ↔ keep[t]? = some true := by
  rw [List.getD_eq_getElem?_getD]
  cases h : keep[t]? with
  | none => simp
  | some b => simp

theorem getD_false_of_lt (keep : List Bool) (t : Nat) (h : t < keep.length) :
    keep.getD t false = false ↔ keep[t]? = some false := by
  rw [List.getD_eq_getElem?_getD, List.getElem?_eq_getElem h]
  simp

/-- For traces of at most 32767 ticks the output of `block` is the flat layout of
the maximal runs of kept ticks and of the kept samples. -/
theorem block_eq_layout (sigsout sigsin : List Int) (keep : List Bool)
    (hk : keep.length = sigsin.length) (hn : sigsin.length ≤ 32767) :
    ∃ runs : List (Nat × Nat),
      block sigsout sigsin keep =
        some (flatLayout sigsin.length (runs.map Prod.fst) (runs.map Prod.snd)
          (keptSamples sigsin keep)) ∧
      (∀ r ∈ runs, IsRun keep sigsin.length r) ∧
      runs.Pairwise (fun r r' => r.1 + r.2 < r'.1) ∧
      (∀ t, t < sigsin.length → keep.getD t false = true →
        ∃ r ∈ runs, r.1 ≤ t ∧ t < r.1 + r.2) ∧
      keptSamples sigsin keep = runSamples sigsin runs ∧
      2 * runs.length ≤ sigsin.length + 1 := by
  have hu : toUInt sigsin.length = sigsin.length := toUInt_of_lt _ (by omega)
  obtain ⟨st, -, B, S⟩ := blockScan_sim sigsin keep hk
  have hub := block_eq_runs sigsout sigsin keep hk
  obtain ⟨f1, f2, f3, f4, f5⟩ := runs_final sigsin keep hk
  have hfin := B.fin
  have hnb := S.nb
  rw [hu] at hub hfin hnb
  rw [hk] at f1 f2 f3 f4 f5
  generalize runLoop sigsin keep sigsin.length sigsin.length 0 runInit = a at *
  refine ⟨a.closed, ?_, f1, f2, f3, by rw [← f5, f4], by omega⟩
  rw [hub, f5]
  unfold flatLayout
  have e1 : toShort (sigsin.length : Int) = sigsin.length := toShort_of_small _ (by omega) (by omega)
  have e2 : toShort (a.closed.length : Int) = a.closed.length :=
    toShort_of_small _ (by omega) (by omega)
  have e3 : a.closed.map (fun r => toShort (r.1 : Int)) =
      (a.closed.map Prod.fst).map Int.ofNat := by
    rw [List.map_map]
    apply List.map_congr_left
    intro r hr
    have := (f1 r hr).2.1
    exact toShort_of_small _ (by omega) (by omega)
  have e4 : a.closed.map (fun r => toShort (r.2 : Int)) =
      (a.closed.map Prod.snd).map Int.ofNat := by
    rw [List.map_map]
    apply List.map_congr_left
    intro r hr
    have := (f1 r hr).2.1
    exact toShort_of_small _ (by omega) (by omega)
  rw [e1, e2, e3, e4, List.length_map]

/-- For traces whose length fits `unsigned int` the output of `block` lists the
maximal runs of kept ticks, each entry written through the conversion to
`short`, and then the kept samples. -/
theorem block_eq_short_runs (sigsout sigsin : List Int) (keep : List Bool)
    (hk : keep.length = sigsin.length) (h32 : sigsin.length < 4294967296) :
    ∃ runs : List (Nat × Nat),
      block sigsout sigsin keep =
        some ([toShort sigsin.length, toShort runs.length] ++
          runs.map (fun r => toShort r.1) ++ runs.map (fun r => toShort r.2) ++
          keptSamples sigsin keep) ∧
      (∀ r ∈ runs, IsRun keep sigsin.length r) ∧
      runs.Pairwise (fun r r' => r.1 + r.2 < r'.1) ∧
      (∀ t, t < sigsin.length → keep.getD t false = true →
        ∃ r ∈ runs, r.1 ≤ t ∧ t < r.1 + r.2) ∧
      keptSamples sigsin keep = runSamples sigsin runs := by
  have hu : toUInt sigsin.length = sigsin.length := toUInt_of_lt _ h32
  have hub := block_eq_runs sigsout sigsin keep hk
  obtain ⟨f1, f2, f3, f4, f5⟩ := runs_final sigsin keep hk
  rw [hu] at hub
  rw [hk] at f1 f2 f3 f4 f5
  generalize runLoop sigsin keep sigsin.length sigsin.length 0 runInit = a at *
  refine ⟨a.closed, ?_, f1, f2, f3, by rw [← f5, f4]⟩
  rw [hub, f5]

/-- Starts and lengths of at most 32767 are written unchanged. -/
theorem map_toShort_of_fit (runs : List (Nat × Nat))
    (hfit : ∀ r ∈ runs, r.1 ≤ 32767 ∧ r.2 ≤ 32767) :
    runs.map (fun r => toShort r.1) = (runs.map Prod.fst).map Int.ofNat ∧
    runs.map (fun r => toShort r.2) = (runs.map Prod.snd).map Int.ofNat := by
  constructor
  · rw [List.map_map]
    apply List.map_congr_left
    intro r hr
    have := (hfit r hr).1
    exact toShort_of_small _ (by omega) (by omega)
  · rw [List.map_map]
    apply List.map_congr_left
    intro r hr
    have := (hfit r hr).2
    exact toShort_of_small _ (by omega) (by omega)

/-! ### The decoder -/

theorem writeBlock_length (xs : List Int) : ∀ (tr : List Int) (pos : Nat),
    (writeBlock tr pos xs).length = tr.length := by
  induction xs with
  | nil => intro tr pos; rfl
  | cons x xs ih => intro tr pos; simp [writeBlock, ih]

theorem writeBlock_getElem? (xs : List Int) : ∀ (tr : List Int) (pos t : Nat),
    pos + xs.length ≤ tr.length →
    (writeBlock tr pos xs)[t]? =
      if pos ≤ t ∧ t < pos + xs.length then xs[t - pos]? else tr[t]? := by
  induction xs with
  | nil =>
    intro tr pos t _
    rw [if_neg (by simp)]; rfl
  | cons x xs ih =>
    intro tr pos t h
    simp only [List.length_cons] at h
    simp only [writeBlock]
    rw [ih (tr.set pos x) (pos + 1) t (by simp; omega)]
    by_cases h1 : pos + 1 ≤ t ∧ t < pos + 1 + xs.length
    · rw [if_pos h1, if_pos (by simp only [List.length_cons]; omega),
        show t - pos = (t - (pos + 1)) + 1 by omega, List.getElem?_cons_succ]
    · rw [if_neg h1]
      by_cases h2 : t = pos
      · rw [h2, List.getElem?_set_self (by omega),
          if_pos (by simp only [List.length_cons]; omega), Nat.sub_self]
        simp
      · rw [List.getElem?_set_ne (by omega), if_neg (by simp only [List.length_cons]; omega)]

theorem slice_length (sigsin : List Int) (r : Nat × Nat) (h : r.1 + r.2 ≤ sigsin.length) :
    ((sigsin.drop r.1).take r.2).length = r.2 := by
  simp; omega

theorem slice_getElem? (sigsin : List Int) (r : Nat × Nat) (t : Nat)
    (h1 : r.1 ≤ t) (h2 : t < r.1 + r.2) :
    ((sigsin.drop r.1).take r.2)[t - r.1]? = sigsin[t]? := by
  rw [List.getElem?_take_of_lt (by omega), List.getElem?_drop,
    show r.1 + (t - r.1) = t by omega]

/-- Copying the samples of a list of blocks writes, at every tick of a block,
the sample of the tr at that tick, and leaves the other ticks alone. -/
theorem unblockCopy_runs (sigsin : List Int) (runs : List (Nat × Nat)) :
    ∀ (tr rest : List Int), tr.length = sigsin.length →
    (∀ r ∈ runs, r.1 + r.2 ≤ sigsin.length) →
    (unblockCopy tr ((runs.map Prod.fst).map Int.ofNat) ((runs.map Prod.snd).map Int.ofNat)
      (runSamples sigsin runs ++ rest)).length = sigsin.length ∧
    ∀ t, ((∃ r ∈ runs, r.1 ≤ t ∧ t < r.1 + r.2) →
        (unblockCopy tr ((runs.map Prod.fst).map Int.ofNat)
          ((runs.map Prod.snd).map Int.ofNat) (runSamples sigsin runs ++ rest))[t]? =
          sigsin[t]?) ∧
      ((∀ r ∈ runs, ¬ (r.1 ≤ t ∧ t < r.1 + r.2)) →
        (unblockCopy tr ((runs.map Prod.fst).map Int.ofNat)
          ((runs.map Prod.snd).map Int.ofNat) (runSamples sigsin runs ++ rest))[t]? =
          tr[t]?) := by
  induction runs with
  | nil =>
    intro tr rest hl _
    exact ⟨hl, fun t => ⟨fun ⟨r, hr, _⟩ => by simp at hr, fun _ => rfl⟩⟩
  | cons r rs ih =>
    intro tr rest hl hr
    have hr1 : r.1 + r.2 ≤ sigsin.length := hr r (List.mem_cons_self _ _)
    have hsl := slice_length sigsin r hr1
    have htake : (runSamples sigsin (r :: rs) ++ rest).take r.2 = (sigsin.drop r.1).take r.2 := by
      simp only [runSamples, List.append_assoc]
      exact List.take_left' hsl
    have hdrop : (runSamples sigsin (r :: rs) ++ rest).drop r.2 = runSamples sigsin rs ++ rest := by
      simp only [runSamples, List.append_assoc]
      exact List.drop_left' hsl
    simp only [List.map_cons, unblockCopy, Int.ofNat_eq_coe, Int.toNat_ofNat]
    rw [htake, hdrop]
    have hwl := writeBlock_length ((sigsin.drop r.1).take r.2) tr r.1
    obtain ⟨i1, i2⟩ := ih (writeBlock tr r.1 ((sigsin.drop r.1).take r.2)) rest
      (by rw [hwl, hl]) (fun r' h' => hr r' (List.mem_cons_of_mem _ h'))
    refine ⟨i1, fun t => ⟨?_, ?_⟩⟩
    · rintro ⟨r', hr', ht⟩
      by_cases hex : ∃ r ∈ rs, r.1 ≤ t ∧ t < r.1 + r.2
      · exact (i2 t).1 hex
      · have hnone : ∀ r ∈ rs, ¬ (r.1 ≤ t ∧ t < r.1 + r.2) := fun r h hc => hex ⟨r, h, hc⟩
        rw [(i2 t).2 hnone]
        rcases List.mem_cons.mp hr' with h | h
        · subst h
          rw [writeBlock_getElem? _ _ _ _ (by rw [hsl, hl]; exact hr1), hsl, if_pos ht,
            slice_getElem? _ _ _ ht.1 ht.2]
        · exact absurd ht (hnone r' h)
    · intro hnone
      rw [(i2 t).2 (fun r' h' => hnone r' (List.mem_cons_of_mem _ h')),
        writeBlock_getElem? _ _ _ _ (by rw [hsl, hl]; exact hr1), hsl,
        if_neg (hnone r (List.mem_cons_self _ _))]

theorem drop_two_add (a b : Int) (l : List Int) (k : Nat) :
    (a :: b :: l).drop (2 + k) = l.drop k := by
  rw [show 2 + k = k + 1 + 1 by omega, List.drop_succ_cons, List.drop_succ_cons]

theorem unblock_flatLayout (n : Nat) (starts lens : List Nat) (payload : List Int)
    (h : lens.length = starts.length) :
    unblock (flatLayout n starts lens payload) =
      unblockCopy (List.replicate n 0) (starts.map Int.ofNat) (lens.map Int.ofNat) payload := by
  have hs : (starts.map Int.ofNat).length = starts.length := by simp
  have hl : (lens.map Int.ofNat).length = starts.length := by simp [h]
  unfold flatLayout
  generalize starts.map Int.ofNat = S at hs
  generalize lens.map Int.ofNat = L at hl
  have e1 : (S ++ L ++ payload).take starts.length = S := by
    rw [List.append_assoc]; exact List.take_left' hs
  have e2 : ((S ++ L ++ payload).drop starts.length).take starts.length = L := by
    rw [List.append_assoc, List.drop_left' hs]; exact List.take_left' hl
  have e3 : (S ++ L ++ payload).drop (starts.length + starts.length) = payload := by
    rw [← List.drop_drop, List.append_assoc, List.drop_left' hs, List.drop_left' hl]
  simp only [unblock, List.cons_append, List.nil_append, List.getD_cons_zero,
    List.getD_cons_succ, Int.toNat_ofNat, List.drop_succ_cons, List.drop_zero]
  rw [Nat.add_assoc 2, drop_two_add, drop_two_add, e1, e2, e3]

/-- Decoding the flat layout of a list of disjoint blocks lying in the trace
gives the trace at the ticks of the blocks and zero elsewhere. -/
theorem unblock_layout_runs (sigsin : List Int) (runs : List (Nat × Nat))
    (hr : ∀ r ∈ runs, r.1 + r.2 ≤ sigsin.length) :
    (unblock (flatLayout sigsin.length (runs.map Prod.fst) (runs.map Prod.snd)
      (runSamples sigsin runs))).length = sigsin.length ∧
    ∀ t, t < sigsin.length →
      ((∃ r ∈ runs, r.1 ≤ t ∧ t < r.1 + r.2) →
        (unblock (flatLayout sigsin.length (runs.map Prod.fst) (runs.map Prod.snd)
          (runSamples sigsin runs)))[t]? = sigsin[t]?) ∧
      ((∀ r ∈ runs, ¬ (r.1 ≤ t ∧ t < r.1 + r.2)) →
        (unblock (flatLayout sigsin.length (runs.map Prod.fst) (runs.map Prod.snd)
          (runSamples sigsin runs)))[t]? = some 0) := by
  rw [unblock_flatLayout _ _ _ _ (by simp)]
  obtain ⟨h1, h2⟩ := unblockCopy_runs sigsin runs (List.replicate sigsin.length 0) []
    (by simp) hr
  rw [List.append_nil] at h1 h2
  refine ⟨h1, fun t ht => ⟨(h2 t).1, fun hn => ?_⟩⟩
  rw [(h2 t).2 hn, List.getElem?_replicate, if_pos ht]

theorem runSamples_length (sigsin : List Int) (runs : List (Nat × Nat))
    (hr : ∀ r ∈ runs, r.1 + r.2 ≤ sigsin.length) :
    (runSamples sigsin runs).length = (runs.map Prod.snd).sum := by
  induction runs with
  | nil => rfl
  | cons r rs ih =>
    simp only [runSamples, List.length_append, List.map_cons, List.sum_cons]
    rw [slice_length sigsin r (hr r (List.mem_cons_self _ _)),
      ih (fun r' h' => hr r' (List.mem_cons_of_mem _ h'))]

theorem keptSamples_length (sigsin : List Int) : ∀ (keep : List Bool),
    keep.length = sigsin.length → (keptSamples sigsin keep).length = keep.count true := by
  induction sigsin with
  | nil =>
    intro keep h
    have : keep = [] := List.length_eq_zero.mp h
    subst this; rfl
  | cons x xs ih =>
    intro keep h
    match keep, h with
    | k :: ks, h =>
      have := ih ks (by simpa using h)
      unfold keptSamples at this ⊢
      cases k <;> simp [List.zip_cons_cons, List.filter_cons, this]

theorem runSamples_getElem? (sigsin : List Int) (runs : List (Nat × Nat))
    (hr : ∀ r ∈ runs, r.1 + r.2 ≤ sigsin.length) :
    ∀ (i : Nat) (h : i < runs.length) (j : Nat), j < runs[i].2 →
      (runSamples sigsin runs)[((runs.take i).map Prod.snd).sum + j]? =
        sigsin[runs[i].1 + j]? := by
  induction runs with
  | nil => intro i h; simp at h
  | cons r rs ih =>
    intro i h j hj
    have hsl := slice_length sigsin r (hr r (List.mem_cons_self _ _))
    cases i with
    | zero =>
      simp only [List.getElem_cons_zero] at hj
      simp only [List.take_zero, List.map_nil, List.sum_nil, Nat.zero_add, runSamples,
        List.getElem_cons_zero]
      rw [List.getElem?_append_left (by omega), List.getElem?_take_of_lt hj, List.getElem?_drop]
    | succ i =>
      simp only [List.getElem_cons_succ] at hj
      simp only [List.take_succ_cons, List.map_cons, List.sum_cons, runSamples,
        List.getElem_cons_succ]
      rw [List.getElem?_append_right (by omega), hsl,
        show r.2 + ((rs.take i).map Prod.snd).sum + j - r.2 =
          ((rs.take i).map Prod.snd).sum + j by omega]
      exact ih (fun r' h' => hr r' (List.mem_cons_of_mem _ h')) i (by simpa using h) j hj

/-! ### The scan of a trace all of whose ticks are kept -/

theorem runLoop_all_kept (x : Int) (m : Nat) (count i : Nat) (hi : 1 ≤ i)
    (hm : i + count = m) :
    runLoop (List.replicate m x) (List.replicate m true) m count i
        { closed := if i = m then [(0, i)] else [], cur := (0, i)
          payload := List.replicate i x, inblock := true } =
      { closed := [(0, m)], cur := (0, m), payload := List.replicate m x, inblock := true } := by
  induction count generalizing i with
  | zero =>
    have : i = m := by omega
    subst this
    simp [runLoop]
  | succ count ih =>
    have hlt : i < m := by omega
    have hk : (List.replicate m true).getD i false = true := by
      rw [List.getD_eq_getElem?_getD, List.getElem?_replicate, if_pos hlt]; rfl
    have hx : (List.replicate m x).getD i 0 = x := by
      rw [List.getD_eq_getElem?_getD, List.getElem?_replicate, if_pos hlt]; rfl
    simp only [runLoop]
    rw [runStep_keep_in _ _ _ _ _ hk rfl, hx]
    have hp : List.replicate i x ++ [x] = List.replicate (i + 1) x := by
      rw [List.replicate_succ']
    have := ih (i + 1) (by omega) (by omega)
    rw [← this]
    congr 1
    simp only [hp, if_neg (show ¬ i = m by omega), List.nil_append]

/-- A trace all of whose ticks are kept: one block, whose length and the length
of the trace are written through the conversion to `short`. -/
theorem block_all_kept (sigsout : List Int) (x : Int) (m : Nat) (h0 : 0 < m)
    (hm : m < 4294967296) :
    block sigsout (List.replicate m x) (List.replicate m true) =
      some ([toShort m, 1, 0, toShort m] ++ List.replicate m x) := by
  rw [block_eq_runs _ _ _ (by simp)]
  have hl : (List.replicate m x).length = m := by simp
  have hk : (List.replicate m true).getD 0 false = true := by
    rw [List.getD_eq_getElem?_getD, List.getElem?_replicate, if_pos h0]; rfl
  have hx : (List.replicate m x).getD 0 0 = x := by
    rw [List.getD_eq_getElem?_getD, List.getElem?_replicate, if_pos h0]; rfl
  have hrun : runLoop (List.replicate m x) (List.replicate m true) m m 0 runInit =
      { closed := [(0, m)], cur := (0, m), payload := List.replicate m x, inblock := true } := by
    obtain ⟨c, rfl⟩ : ∃ c, m = c + 1 := ⟨m - 1, by omega⟩
    simp only [runLoop]
    rw [runStep_keep_out _ _ _ _ _ hk rfl, hx, ← runLoop_all_kept x (c + 1) c 1 (by omega) (by omega)]
    congr 1
  have e1 : toShort ((1 : Nat) : Int) = 1 := by decide
  have e0 : toShort ((0 : Nat) : Int) = 0 := by decide
  rw [hl, toUInt_of_lt m hm, hrun]
  simp only [List.length_singleton, List.map_cons, List.map_nil, e1, e0]
  rfl

theorem unblockCopy_length (starts : List Int) : ∀ (tr lens payload : List Int),
    (unblockCopy tr starts lens payload).length = tr.length := by
  induction starts with
  | nil => intro tr lens payload; rfl
  | cons s starts ih =>
    intro tr lens payload
    cases lens with
    | nil => rfl
    | cons l lens => simp only [unblockCopy, ih, writeBlock_length]

/-- The decoded trace has the length read from the first entry. -/
theorem unblock_length (adc : List Int) : (unblock adc).length = (adc.getD 0 0).toNat := by
  simp [unblock, unblockCopy_length]

theorem toShort_32768 : toShort ((32768 : Nat) : Int) = -32768 := by decide

/-- A trace of 32768 ticks, all kept: the length of the trace and the length of
its one block are written as -32768. -/
theorem block_all_kept_32768 (sigsout : List Int) (x : Int) :
    block sigsout (List.replicate 32768 x) (List.replicate 32768 true) =
      some ([-32768, 1, 0, -32768] ++ List.replicate 32768 x) := by
  rw [block_all_kept sigsout x 32768 (by omega) (by omega), toShort_32768]

/-- C1 (amended): for a trace of at most 32767 ticks and a keep mask of the same
length, decoding `block(sigsIn, keep)` with the matching unblock operation gives
a trace of the length of `sigsIn` whose value at every kept tick is the sample
of `sigsIn` there, and whose value at every tick that is not kept is zero. -/
theorem block_unblock_roundtrip (sigsout sigsin : List Int) (keep : List Bool)
    (hk : keep.length = sigsin.length) (hn : sigsin.length ≤ 32767) :
    ∃ out, block sigsout sigsin keep = some out ∧
      (unblock out).length = sigsin.length ∧
      ∀ t, t < sigsin.length →
        (keep[t]? = some true → (unblock out)[t]? = sigsin[t]?) ∧
        (keep[t]? = some false → (unblock out)[t]? = some 0) := by
  obtain ⟨runs, hb, hrun, -, hcov, hpay, -⟩ := block_eq_layout sigsout sigsin keep hk hn
  rw [hpay] at hb
  obtain ⟨h1, h2⟩ := unblock_layout_runs sigsin runs (fun r hr => (hrun r hr).2.1)
  refine ⟨_, hb, h1, fun t ht => ⟨fun hkt => ?_, fun hkt => ?_⟩⟩
  · exact (h2 t ht).1 (hcov t ht ((getD_true_iff keep t).mpr hkt))
  · refine (h2 t ht).2 (fun r hr hc => ?_)
    have := (getD_true_iff keep t).mp ((hrun r hr).2.2.1 t hc.1 hc.2)
    rw [hkt] at this
    exact absurd this (by simp)

/-- Witness for C1: a trace of five ticks. -/
theorem block_unblock_roundtrip_witness :
    ∃ out, block [] [7, -2, 3, 4, 5] [true, true, false, false, true] = some out ∧
      (unblock out).length = [7, -2, 3, 4, (5 : Int)].length ∧
      ∀ t, t < [7, -2, 3, 4, (5 : Int)].length →
        ([true, true, false, false, true][t]? = some true →
          (unblock out)[t]? = [7, -2, 3, 4, (5 : Int)][t]?) ∧
        ([true, true, false, false, true][t]? = some false → (unblock out)[t]? = some 0) :=
  block_unblock_roundtrip [] [7, -2, 3, 4, 5] [true, true, false, false, true] rfl
    (by decide)

/-- Counterexample for C1 as stated: on a trace of 32768 ticks, all kept, the
length at the head of the output of `block` has wrapped to -32768, and the
decoded trace is empty instead of 32768 ticks long. -/
theorem block_unblock_roundtrip_fails_at_32768 :
    ∃ out, block [] (List.replicate 32768 5) (List.replicate 32768 true) = some out ∧
      out = [-32768, 1, 0, -32768] ++ List.replicate 32768 5 ∧
      (unblock out).length = 0 ∧ (List.replicate 32768 (5 : Int)).length = 32768 :=
  ⟨_, block_all_kept_32768 [] 5, rfl, by rw [unblock_length]; rfl, List.length_replicate _ _⟩

/-- The keep mask of the witnesses below: three kept ticks, then `m` ticks that
are not kept. -/
theorem getD_three_kept (m t : Nat)
    (h : ([true, true, true] ++ List.replicate m false).getD t false = true) : t < 3 := by
  by_contra hc
  rw [List.getD_eq_getElem?_getD, List.getElem?_append_right (by simp; omega),
    List.getElem?_replicate] at h
  split at h <;> exact absurd h (by simp)

theorem isRun_three_kept (m i : Nat) (r : Nat × Nat)
    (h : IsRun ([true, true, true] ++ List.replicate m false) i r) :
    r.1 ≤ 32767 ∧ r.2 ≤ 32767 := by
  obtain ⟨h1, -, h3, -, -⟩ := h
  have a := getD_three_kept m _ (h3 r.1 (Nat.le_refl _) (by omega))
  have b := getD_three_kept m _ (h3 (r.1 + r.2 - 1) (by omega) (by omega))
  omega

theorem length_three_append {α : Type} (a b c x : α) (m : Nat) :
    ([a, b, c] ++ List.replicate m x).length = m + 3 := by
  rw [List.length_append, List.length_replicate]
  simp only [List.length_cons, List.length_nil]
  omega

/-- C7 (amended): for a trace of fewer than `2 ^ 31` ticks and a keep mask of
the same length `n` in which every maximal run of kept ticks has a start and a
length of at most 32767 (what a `short` holds), the blocks recorded by `block`
are exactly the maximal runs of kept ticks: every block `(s, l)` has `l ≥ 1`,
all of its ticks `[s, s+l)` are kept, tick `s+l` is not kept or `s+l = n`, tick
`s-1` is not kept or `s = 0`; every kept tick lies in exactly one block;
consecutive blocks satisfy `blockStarts[i] + blockLengths[i] < blockStarts[i+1]`;
and the payload holds the kept samples only, as many as the block lengths add
up to. -/
theorem block_runs_maximal (sigsout sigsin : List Int) (keep : List Bool)
    (hk : keep.length = sigsin.length) (hn : sigsin.length < 2147483648)
    (hfit : ∀ r, IsRun keep sigsin.length r → r.1 ≤ 32767 ∧ r.2 ≤ 32767) :
    ∃ (runs : List (Nat × Nat)) (payload : List Int),
      block sigsout sigsin keep =
        some (shortLayout sigsin.length (runs.map Prod.fst) (runs.map Prod.snd) payload) ∧
      (∀ r ∈ runs, 1 ≤ r.2 ∧
        (∀ t, r.1 ≤ t → t < r.1 + r.2 → keep[t]? = some true) ∧
        (keep[r.1 + r.2]? = some false ∨ r.1 + r.2 = sigsin.length) ∧
        (keep[r.1 - 1]? = some false ∨ r.1 = 0)) ∧
      (∀ t, keep[t]? = some true →
        ∃! j : Fin runs.length, (runs.get j).1 ≤ t ∧ t < (runs.get j).1 + (runs.get j).2) ∧
      (∀ (j : Nat) (h : j + 1 < runs.length),
        (runs.get ⟨j, by omega⟩).1 + (runs.get ⟨j, by omega⟩).2 < (runs.get ⟨j + 1, h⟩).1) ∧
      payload = keptSamples sigsin keep ∧
      payload.length = (runs.map Prod.snd).sum := by
  obtain ⟨runs, hb, hrun, hsep, hcov, hpay⟩ :=
    block_eq_short_runs sigsout sigsin keep hk (by omega)
  obtain ⟨m1, m2⟩ := map_toShort_of_fit runs (fun r hr => hfit r (hrun r hr))
  refine ⟨runs, keptSamples sigsin keep, ?_, ?_, ?_, ?_, rfl, ?_⟩
  · rw [hb, m1, m2]
    simp only [shortLayout, List.length_map]
  · intro r hr
    obtain ⟨r1, r2, r3, r4, r5⟩ := hrun r hr
    refine ⟨r1, fun t h1 h2 => (getD_true_iff keep t).mp (r3 t h1 h2), ?_, ?_⟩
    · by_cases hlt : r.1 + r.2 < keep.length
      · exact Or.inl ((getD_false_of_lt keep _ hlt).mp r4)
      · exact Or.inr (by omega)
    · rcases r5 with h | h
      · exact Or.inr h
      · by_cases h0 : r.1 = 0
        · exact Or.inr h0
        · exact Or.inl ((getD_false_of_lt keep _ (by omega)).mp h)
  · intro t hkt
    have htn : t < sigsin.length := by
      rw [← hk]
      by_contra hc
      rw [List.getElem?_eq_none (by omega)] at hkt
      exact absurd hkt (by simp)
    obtain ⟨r, hr, hr1, hr2⟩ := hcov t htn ((getD_true_iff keep t).mpr hkt)
    obtain ⟨j, hj⟩ := List.mem_iff_get.mp hr
    refine ⟨j, by show (runs.get j).1 ≤ t ∧ t < (runs.get j).1 + (runs.get j).2
                  rw [hj]; exact ⟨hr1, hr2⟩, ?_⟩
    intro j' hj'
    have hjt : (runs.get j').1 ≤ t ∧ t < (runs.get j').1 + (runs.get j').2 := hj'
    have hp := List.pairwise_iff_get.mp hsep
    by_contra hne
    rcases Nat.lt_or_gt_of_ne (fun h => hne (Fin.ext h)) with h | h
    · have := hp j' j h
      rw [hj] at this
      omega
    · have := hp j j' h
      rw [hj] at this
      omega
  · intro j h
    exact List.pairwise_iff_get.mp hsep ⟨j, by omega⟩ ⟨j + 1, h⟩ (by simp)
  · rw [hpay]
    exact runSamples_length sigsin runs (fun r hr => (hrun r hr).2.1)

/-- Witness for C7: a trace of 32768 ticks of which the first three are kept. -/
theorem block_runs_maximal_witness :
    ∃ (runs : List (Nat × Nat)) (payload : List Int),
      block [] ([1, 2, 3] ++ List.replicate 32765 0)
          ([true, true, true] ++ List.replicate 32765 false) =
        some (shortLayout ([1, 2, 3] ++ List.replicate 32765 (0 : Int)).length
          (runs.map Prod.fst) (runs.map Prod.snd) payload) ∧
      (∀ r ∈ runs, 1 ≤ r.2 ∧
        (∀ t, r.1 ≤ t → t < r.1 + r.2 →
          ([true, true, true] ++ List.replicate 32765 false)[t]? = some true) ∧
        (([true, true, true] ++ List.replicate 32765 false)[r.1 + r.2]? = some false ∨
          r.1 + r.2 = ([1, 2, 3] ++ List.replicate 32765 (0 : Int)).length) ∧
        (([true, true, true] ++ List.replicate 32765 false)[r.1 - 1]? = some false ∨
          r.1 = 0)) ∧
      (∀ t, ([true, true, true] ++ List.replicate 32765 false)[t]? = some true →
        ∃! j : Fin runs.length, (runs.get j).1 ≤ t ∧ t < (runs.get j).1 + (runs.get j).2) ∧
      (∀ (j : Nat) (h : j + 1 < runs.length),
        (runs.get ⟨j, by omega⟩).1 + (runs.get ⟨j, by omega⟩).2 < (runs.get ⟨j + 1, h⟩).1) ∧
      payload = keptSamples ([1, 2, 3] ++ List.replicate 32765 0)
        ([true, true, true] ++ List.replicate 32765 false) ∧
      payload.length = (runs.map Prod.snd).sum :=
  block_runs_maximal [] ([1, 2, 3] ++ List.replicate 32765 0)
    ([true, true, true] ++ List.replicate 32765 false)
    ((length_three_append true true true false 32765).trans
      (length_three_append (1 : Int) 2 3 0 32765).symm)
    (by rw [length_three_append]; omega)
    (fun r h => isRun_three_kept 32765 _ r h)

/-- Counterexample for C7 as stated: on a trace of 32768 ticks, all kept, the
one block recorded by `block` has start 0 and length -32768, which is not a
length of at least 1. -/
theorem block_runs_maximal_fails_at_32768 :
    block [] (List.replicate 32768 7) (List.replicate 32768 true) =
      some ([-32768, 1, 0, -32768] ++ List.replicate 32768 7) ∧
    ¬ (1 ≤ (-32768 : Int)) :=
  ⟨block_all_kept_32768 [] 7, by decide⟩

/-- C8 (amended): for a trace `sigsIn` of fewer than `2 ^ 31` ticks and a keep
mask of the same length, the payload of the output of `block` is the
subsequence of `sigsIn` at the kept ticks in the original order and
`len(payload) = number of true entries of keep`; and when every maximal run of
kept ticks has a start and a length of at most 32767 (what a `short` holds),
`sum(blockLengths) = len(payload)` and the `j`-th sample of block `i`, at payload
offset `blockLengths[0] + ... + blockLengths[i-1] + j`, is
`sigsIn[blockStarts[i] + j]`. -/
theorem block_payload_invariant (sigsout sigsin : List Int) (keep : List Bool)
    (hk : keep.length = sigsin.length) (hn : sigsin.length < 2147483648) :
    ∃ (runs : List (Nat × Nat)) (payload : List Int),
      block sigsout sigsin keep =
        some ([toShort sigsin.length, toShort runs.length] ++
          runs.map (fun r => toShort r.1) ++ runs.map (fun r => toShort r.2) ++ payload) ∧
      payload = keptSamples sigsin keep ∧
      payload.length = keep.count true ∧
      ((∀ r, IsRun keep sigsin.length r → r.1 ≤ 32767 ∧ r.2 ≤ 32767) →
        block sigsout sigsin keep =
          some (shortLayout sigsin.length (runs.map Prod.fst) (runs.map Prod.snd) payload) ∧
        (runs.map Prod.snd).sum = payload.length ∧
        ∀ (i : Nat) (h : i < runs.length) (j : Nat), j < (runs.get ⟨i, h⟩).2 →
          (runs.get ⟨i, h⟩).1 + j < sigsin.length ∧
          payload[((runs.take i).map Prod.snd).sum + j]? =
            sigsin[(runs.get ⟨i, h⟩).1 + j]?) := by
  obtain ⟨runs, hb, hrun, -, -, hpay⟩ := block_eq_short_runs sigsout sigsin keep hk (by omega)
  have hin : ∀ r ∈ runs, r.1 + r.2 ≤ sigsin.length := fun r hr => (hrun r hr).2.1
  refine ⟨runs, keptSamples sigsin keep, hb, rfl, keptSamples_length sigsin keep hk,
    fun hfit => ⟨?_, ?_, ?_⟩⟩
  · obtain ⟨m1, m2⟩ := map_toShort_of_fit runs (fun r hr => hfit r (hrun r hr))
    rw [hb, m1, m2]
    simp only [shortLayout, List.length_map]
  · rw [hpay]; exact (runSamples_length sigsin runs hin).symm
  · intro i h j hj
    refine ⟨?_, ?_⟩
    · have := hin _ (List.get_mem runs i h)
      omega
    · rw [hpay]
      exact runSamples_getElem? sigsin runs hin i h j hj

/-- Witness for C8: a trace of 32768 ticks of which the first three are kept;
its one run fits a `short`, so the block lengths add up to the payload length
and the payload is aligned with the recorded start. -/
theorem block_payload_invariant_witness :
    ∃ (runs : List (Nat × Nat)) (payload : List Int),
      block [] ([10, 20, 30] ++ List.replicate 32765 0)
          ([true, true, true] ++ List.replicate 32765 false) =
        some (shortLayout ([10, 20, 30] ++ List.replicate 32765 (0 : Int)).length
          (runs.map Prod.fst) (runs.map Prod.snd) payload) ∧
      payload = keptSamples ([10, 20, 30] ++ List.replicate 32765 0)
        ([true, true, true] ++ List.replicate 32765 false) ∧
      payload.length = ([true, true, true] ++ List.replicate 32765 false).count true ∧
      (runs.map Prod.snd).sum = payload.length ∧
      ∀ (i : Nat) (h : i < runs.length) (j : Nat), j < (runs.get ⟨i, h⟩).2 →
        (runs.get ⟨i, h⟩).1 + j < ([10, 20, 30] ++ List.replicate 32765 (0 : Int)).length ∧
        payload[((runs.take i).map Prod.snd).sum + j]? =
          ([10, 20, 30] ++ List.replicate 32765 (0 : Int))[(runs.get ⟨i, h⟩).1 + j]? := by
  obtain ⟨runs, payload, -, h2, h3, h4⟩ :=
    block_payload_invariant [] ([10, 20, 30] ++ List.replicate 32765 0)
      ([true, true, true] ++ List.replicate 32765 false)
      ((length_three_append true true true false 32765).trans
        (length_three_append (10 : Int) 20 30 0 32765).symm)
      (by rw [length_three_append]; omega)
  obtain ⟨h5, h6, h7⟩ := h4 (fun r h => isRun_three_kept 32765 _ r h)
  exact ⟨runs, payload, h5, h2, h3, h6, h7⟩

/-- Counterexample for C8 as stated: on a trace of 32768 ticks, all kept, the
payload has 32768 samples while the one block length recorded by `block` is
-32768. -/
theorem block_payload_invariant_fails_at_32768 :
    block [] (List.replicate 32768 9) (List.replicate 32768 true) =
      some ([-32768, 1, 0, -32768] ++ List.replicate 32768 9) ∧
    (List.replicate 32768 (9 : Int)).length = 32768 ∧
    List.sum [(-32768 : Int)] ≠ 32768 :=
  ⟨block_all_kept_32768 [] 9, List.length_replicate _ _, by decide⟩

/-- C10: for a trace and a keep mask of the same length `n`, the scan of `block`
reaches every tick with its buffers intact, and at every tick `i` the running
block count is below `maxblocks = adcsize/2 + 1`, the size of `blockbegin` and
`blocksize` (and below `n/2 + 1`), and the running payload size is below `n`,
the size of `zerosuppressed`, so that the body of the loop performs its writes
in range; the final block count is at most `(n + 1)/2` and the final payload
size at most `n`. -/
theorem block_buffers_in_range (sigsin : List Int) (keep : List Bool)
    (hk : keep.length = sigsin.length) :
    (∀ i, i < toUInt sigsin.length →
      ∃ st, blockLoop sigsin keep (toUInt sigsin.length) i 0 (blockInit sigsin) = some st ∧
        st.blockbegin.length = toUInt sigsin.length / 2 + 1 ∧
        st.blocksize.length = toUInt sigsin.length / 2 + 1 ∧
        st.zerosuppressed.length = sigsin.length ∧
        st.nblocks < toUInt sigsin.length / 2 + 1 ∧
        st.nblocks < sigsin.length / 2 + 1 ∧
        st.zerosuppressedsize < sigsin.length ∧
        (blockStep sigsin keep (toUInt sigsin.length) i st).isSome = true) ∧
    ∃ st, blockScan sigsin keep = some st ∧
      st.nblocks ≤ (sigsin.length + 1) / 2 ∧
      st.zerosuppressedsize ≤ sigsin.length := by
  have hle := toUInt_le sigsin.length
  refine ⟨fun i hi => ?_, ?_⟩
  · obtain ⟨st, h1, B, S⟩ := blockLoop_sim sigsin keep _ (toUInt_lt _) (by omega) hle i 0 i
      _ _ (by omega) (by omega) (bounds_init sigsin) (sim_init sigsin)
    obtain ⟨st', h2, -, -⟩ := blockStep_sim sigsin keep _ i st _ hi (toUInt_lt _) (by omega)
      hle B S
    have hc := B.cnt hi
    have hz := B.zsize
    have hc' : 2 * st.nblocks ≤ i := by
      split at hc <;> omega
    exact ⟨st, h1, B.bb, B.bs, B.zs, by omega, by omega, by omega, by rw [h2]; rfl⟩
  · obtain ⟨st, h1, B, -⟩ := blockScan_sim sigsin keep hk
    have := B.fin
    have := B.zsize
    exact ⟨st, h1, by omega, by omega⟩

/-- Witness for C10: a trace of four ticks. -/
theorem block_buffers_in_range_witness :
    (∀ i, i < toUInt ([3, 1, 4, 1] : List Int).length →
      ∃ st, blockLoop [3, 1, 4, 1] [true, false, true, true]
          (toUInt ([3, 1, 4, 1] : List Int).length) i 0 (blockInit [3, 1, 4, 1]) = some st ∧
        st.blockbegin.length = toUInt ([3, 1, 4, 1] : List Int).length / 2 + 1 ∧
        st.blocksize.length = toUInt ([3, 1, 4, 1] : List Int).length / 2 + 1 ∧
        st.zerosuppressed.length = ([3, 1, 4, 1] : List Int).length ∧
        st.nblocks < toUInt ([3, 1, 4, 1] : List Int).length / 2 + 1 ∧
        st.nblocks < ([3, 1, 4, 1] : List Int).length / 2 + 1 ∧
        st.zerosuppressedsize < ([3, 1, 4, 1] : List Int).length ∧
        (blockStep [3, 1, 4, 1] [true, false, true, true]
          (toUInt ([3, 1, 4, 1] : List Int).length) i st).isSome = true) ∧
    ∃ st, blockScan [3, 1, 4, 1] [true, false, true, true] = some st ∧
      st.nblocks ≤ (([3, 1, 4, 1] : List Int).length + 1) / 2 ∧
      st.zerosuppressedsize ≤ ([3, 1, 4, 1] : List Int).length :=
  block_buffers_in_range [3, 1, 4, 1] [true, false, true, true] rfl

end LarsoftHuffmanCompressService

namespace ExpoWhiteChannelNoiseService

open Cxx

/-- C4 (defect of the code): a service with one library entry per view, set up
by the constructor from the random-source state `0` and regenerated from state
`3`.  The shaper used here returns `[norm, state]`.  After `generateNoise()`
the U and V libraries still hold the waveforms of the construction, and the Z
library holds the waveform shaped with the V parameters, whereas populating
from state `3` as the constructor does gives each view its own waveform. -/
theorem generateNoise_writes_only_Z :
    let shaper : Int → Int → Int → View_t → Nat → List Int × Nat :=
      fun norm _ _ _ st => ([norm, (st : Int)], st + 1)
    let svc : Service Int :=
      { fNoiseNormZ := 1, fNoiseWidthZ := 10, fLowCutoffZ := 100
        fNoiseNormU := 2, fNoiseWidthU := 20, fLowCutoffU := 200
        fNoiseNormV := 3, fNoiseWidthV := 30, fLowCutoffV := 300
        fNoiseArrayPoints := 1, fOldNoiseIndex := true
        fNoiseZ := [], fNoiseU := [], fNoiseV := [] }
    let built := populate shaper svc 0
    (built.1.fNoiseZ = [[1, 0]] ∧ built.1.fNoiseU = [[2, 1]] ∧ built.1.fNoiseV = [[3, 2]] ∧
      built.2 = 3) ∧
    ((generateNoise shaper built.1 built.2).1.fNoiseZ = [[3, 5]] ∧
      (generateNoise shaper built.1 built.2).1.fNoiseU = [[2, 1]] ∧
      (generateNoise shaper built.1 built.2).1.fNoiseV = [[3, 2]]) ∧
    ((populate shaper built.1 built.2).1.fNoiseZ = [[1, 3]] ∧
      (populate shaper built.1 built.2).1.fNoiseU = [[2, 4]] ∧
      (populate shaper built.1 built.2).1.fNoiseV = [[3, 5]]) := by
  decide

theorem nearbyint_le {α : Type} [LinearOrderedField α] [FloorRing α]
    (x : α) (m : Int) (h : x < (m : α) + 1 / 2) : nearbyint x ≤ m := by
  have hfl : ⌊x⌋ ≤ m := by
    have : x < ((m + 1 : Int) : α) := by push_cast; linarith
    have := Int.floor_lt.mpr this
    omega
  unfold nearbyint
  split
  · exact hfl
  · rename_i h1
    have hne : ⌊x⌋ ≠ m := by
      intro he
      apply h1
      rw [he]; linarith
    split
    · omega
    · split <;> omega

theorem le_nearbyint {α : Type} [LinearOrderedField α] [FloorRing α]
    (x : α) (m : Int) (h : (m : α) - 1 / 2 < x) : m ≤ nearbyint x := by
  have hfl : m - 1 ≤ ⌊x⌋ := by
    apply Int.le_floor.mpr
    push_cast; linarith
  unfold nearbyint
  by_cases he : ⌊x⌋ = m - 1
  · have hfr : (1 : α) / 2 < x - (⌊x⌋ : α) := by
      rw [he]; push_cast; linarith
    rw [if_neg (not_lt.mpr hfr.le), if_pos hfr]
    omega
  · split
    · omega
    · split
      · omega
      · split <;> omega

/-- What the proofs need from the rounding of a result to `double`: it is
monotone, and exact on the quarters of the integers up to `2 ^ 34`. -/
theorem rnd_quarter_nat {α : Type} [LinearOrderedField α] [FloorRing α]
    (rnd : α → α)
    (hexact : ∀ k : Nat, k ≤ 17179869184 → rnd ((k : α) / 4) = (k : α) / 4)
    (k : Nat) (hk : k < 4294967296) : rnd (k : α) = (k : α) := by
  have := hexact (4 * k) (by omega)
  rwa [show (((4 * k : Nat) : α) / 4) = (k : α) by push_cast; ring] at this

/-- The rounded product of the legacy choice lies between `0` and `N - 3/4`. -/
theorem old_product_bounds {α : Type} [LinearOrderedField α] [FloorRing α]
    (rnd : α → α) (hmono : ∀ a b : α, a ≤ b → rnd a ≤ rnd b)
    (hexact : ∀ k : Nat, k ≤ 17179869184 → rnd ((k : α) / 4) = (k : α) / 4)
    (N : Nat) (h0 : 0 < N) (h1 : N < 4294967296) (u : α) (hu0 : 0 ≤ u) (hu1 : u < 1) :
    0 ≤ rnd (u * rnd (rnd (1 * ((toUInt (N + 4294967295) : Nat) : α)) + rnd (1 / 10))) ∧
    rnd (u * rnd (rnd (1 * ((toUInt (N + 4294967295) : Nat) : α)) + rnd (1 / 10))) ≤
      ((N - 1 : Nat) : α) + 1 / 4 := by
  rw [toUInt_last N h0 h1, one_mul, rnd_quarter_nat rnd hexact (N - 1) (by omega)]
  have hz : rnd (0 : α) = 0 := by simpa using hexact 0 (by omega)
  have hq : rnd ((1 : α) / 4) = 1 / 4 := by simpa using hexact 1 (by omega)
  have hM : rnd (((N - 1 : Nat) : α) + 1 / 4) = ((N - 1 : Nat) : α) + 1 / 4 := by
    have := hexact (4 * (N - 1) + 1) (by omega)
    rwa [show (((4 * (N - 1) + 1 : Nat) : α) / 4) = ((N - 1 : Nat) : α) + 1 / 4 by
      push_cast; ring] at this
  have hc0 : 0 ≤ rnd ((1 : α) / 10) := by
    rw [← hz]; exact hmono _ _ (by norm_num)
  have hc1 : rnd ((1 : α) / 10) ≤ 1 / 4 := by
    rw [← hq]; exact hmono _ _ (by norm_num)
  have hMn : (0 : α) ≤ ((N - 1 : Nat) : α) := Nat.cast_nonneg _
  have hs0 : 0 ≤ rnd (((N - 1 : Nat) : α) + rnd (1 / 10)) := by
    rw [← hz]; exact hmono _ _ (by linarith)
  have hs1 : rnd (((N - 1 : Nat) : α) + rnd (1 / 10)) ≤ ((N - 1 : Nat) : α) + 1 / 4 := by
    rw [← hM]; exact hmono _ _ (by linarith)
  constructor
  · rw [← hz]; exact hmono _ _ (mul_nonneg hu0 hs0)
  · rw [← hM]
    apply hmono
    have : u * rnd (((N - 1 : Nat) : α) + rnd (1 / 10)) ≤
        1 * rnd (((N - 1 : Nat) : α) + rnd (1 / 10)) :=
      mul_le_mul_of_nonneg_right hu1.le hs0
    linarith

theorem oldNoiseIndex_lt {α : Type} [LinearOrderedField α] [FloorRing α]
    (rnd : α → α) (hmono : ∀ a b : α, a ≤ b → rnd a ≤ rnd b)
    (hexact : ∀ k : Nat, k ≤ 17179869184 → rnd ((k : α) / 4) = (k : α) / 4)
    (N : Nat) (h0 : 0 < N) (h1 : N < 4294967296) (u : α) (hu0 : 0 ≤ u) (hu1 : u < 1) :
    oldNoiseIndex rnd N u < N := by
  obtain ⟨hp0, hp1⟩ := old_product_bounds rnd hmono hexact N h0 h1 u hu0 hu1
  unfold oldNoiseIndex
  generalize rnd (u * rnd (rnd (1 * ((toUInt (N + 4294967295) : Nat) : α)) + rnd (1 / 10))) = p
    at hp0 hp1
  have hle : nearbyint p ≤ ((N - 1 : Nat) : Int) :=
    nearbyint_le p _ (by push_cast at hp1 ⊢; linarith)
  have hge : (0 : Int) ≤ nearbyint p := le_nearbyint p 0 (by push_cast; linarith)
  have : (nearbyint p).toNat ≤ N - 1 := by omega
  rw [toUInt_of_lt _ (by omega)]
  omega

theorem newNoiseIndex_lt {α : Type} [LinearOrderedField α] [FloorRing α]
    (rnd : α → α) (hmono : ∀ a b : α, a ≤ b → rnd a ≤ rnd b)
    (hexact : ∀ k : Nat, k ≤ 17179869184 → rnd ((k : α) / 4) = (k : α) / 4)
    (N : Nat) (h0 : 0 < N) (h1 : N < 4294967296) (u : α) (hu0 : 0 ≤ u) (hu1 : u < 1) :
    newNoiseIndex rnd N u < N := by
  have hz : rnd (0 : α) = 0 := by simpa using hexact 0 (by omega)
  have hN := rnd_quarter_nat rnd hexact N h1
  have hNn : (0 : α) ≤ (N : α) := Nat.cast_nonneg _
  have hp0 : 0 ≤ rnd (u * (N : α)) := by
    rw [← hz]; exact hmono _ _ (mul_nonneg hu0 hNn)
  have hp1 : rnd (u * (N : α)) ≤ (N : α) := by
    rw [← hN]
    apply hmono
    have : u * (N : α) ≤ 1 * (N : α) := mul_le_mul_of_nonneg_right hu1.le hNn
    rw [hN]; linarith
  unfold newNoiseIndex doubleToUInt
  generalize rnd (u * (N : α)) = p at hp0 hp1
  have hf0 : (0 : Int) ≤ ⌊p⌋ := Int.floor_nonneg.mpr hp0
  have hf1 : ⌊p⌋ ≤ (N : Int) := by
    have : ⌊p⌋ ≤ ⌊(N : α)⌋ := Int.floor_le_floor hp1
    simpa using this
  have : ⌊p⌋.toNat ≤ N := by omega
  rw [toUInt_of_lt _ (by omega)]
  dsimp only
  split
  · rename_i he
    rw [he, toUInt_last N h0 h1]; omega
  · omega

theorem chooseNoiseChan_lt {α : Type} [LinearOrderedField α] [FloorRing α]
    (rnd : α → α) (hmono : ∀ a b : α, a ≤ b → rnd a ≤ rnd b)
    (hexact : ∀ k : Nat, k ≤ 17179869184 → rnd ((k : α) / 4) = (k : α) / 4)
    (svc : Service α) (h0 : 0 < svc.fNoiseArrayPoints)
    (h1 : svc.fNoiseArrayPoints < 4294967296) (u : α) (hu0 : 0 ≤ u) (hu1 : u < 1) :
    chooseNoiseChan rnd svc u < svc.fNoiseArrayPoints := by
  unfold chooseNoiseChan
  split
  · exact oldNoiseIndex_lt rnd hmono hexact _ h0 h1 u hu0 hu1
  · exact newNoiseIndex_lt rnd hmono hexact _ h0 h1 u hu0 hu1

/-- C6: for every library size `N > 0` (an `unsigned int`) and every uniform
draw `u` with `0 ≤ u < 1`, the index chosen by `addNoise` lies in `[0, N)` under
the legacy policy `nearbyint(u * ((N-1) + 0.1))` and under the uniform policy
`floor(u * N)` clamped to `N-1`, so that the lookup of an entry of a library of
`N` waveforms is in range.  The rounding of a `double` result is any monotone
function that is exact on the quarters of the integers up to `2 ^ 34`. -/
theorem noise_index_in_range {α : Type} [LinearOrderedField α] [FloorRing α]
    (rnd : α → α) (hmono : ∀ a b : α, a ≤ b → rnd a ≤ rnd b)
    (hexact : ∀ k : Nat, k ≤ 17179869184 → rnd ((k : α) / 4) = (k : α) / 4)
    (svc : Service α) (h0 : 0 < svc.fNoiseArrayPoints)
    (h1 : svc.fNoiseArrayPoints < 4294967296) (u : α) (hu0 : 0 ≤ u) (hu1 : u < 1) :
    oldNoiseIndex rnd svc.fNoiseArrayPoints u < svc.fNoiseArrayPoints ∧
    newNoiseIndex rnd svc.fNoiseArrayPoints u < svc.fNoiseArrayPoints ∧
    chooseNoiseChan rnd svc u < svc.fNoiseArrayPoints ∧
    ∀ lib : List (List α), lib.length = svc.fNoiseArrayPoints →
      (lib[chooseNoiseChan rnd svc u]?).isSome = true := by
  have hc := chooseNoiseChan_lt rnd hmono hexact svc h0 h1 u hu0 hu1
  refine ⟨oldNoiseIndex_lt rnd hmono hexact _ h0 h1 u hu0 hu1,
    newNoiseIndex_lt rnd hmono hexact _ h0 h1 u hu0 hu1, hc, fun lib hl => ?_⟩
  rw [List.getElem?_eq_getElem (by omega)]
  rfl

/-- Witness for C6: exact arithmetic, ten waveforms, the draw `1/2`. -/
theorem noise_index_in_range_witness :
    oldNoiseIndex (fun x : ℚ => x) demoService.fNoiseArrayPoints (1 / 2) <
      demoService.fNoiseArrayPoints ∧
    newNoiseIndex (fun x : ℚ => x) demoService.fNoiseArrayPoints (1 / 2) <
      demoService.fNoiseArrayPoints ∧
    chooseNoiseChan (fun x : ℚ => x) demoService (1 / 2) < demoService.fNoiseArrayPoints ∧
    ∀ lib : List (List ℚ), lib.length = demoService.fNoiseArrayPoints →
      (lib[chooseNoiseChan (fun x : ℚ => x) demoService (1 / 2)]?).isSome = true :=
  noise_index_in_range (fun x : ℚ => x) (fun _ _ h => h) (fun _ _ => rfl) demoService
    (by decide) (by decide) (1 / 2) (by norm_num) (by norm_num)

theorem addLibrary_isSome {α : Type} [LinearOrderedField α] [FloorRing α]
    (rnd toSig : α → α) (lib : List (List α)) (noisechan : Nat)
    (hn : noisechan < lib.length) (sigs : List α) :
    ∀ itck, (∀ w ∈ lib, itck + sigs.length ≤ w.length) →
      ∃ sigs1, addLibrary rnd toSig lib noisechan itck sigs = some sigs1 := by
  induction sigs with
  | nil => intro itck _; exact ⟨[], rfl⟩
  | cons sig sigs ih =>
    intro itck hw
    have hl := hw _ (List.getElem_mem hn)
    simp only [List.length_cons] at hl
    obtain ⟨rest, hr⟩ := ih (itck + 1) (fun w hm => by
      have := hw w hm
      simp only [List.length_cons] at this
      omega)
    refine ⟨toSig (rnd (sig + (lib[noisechan])[itck])) :: rest, ?_⟩
    simp only [addLibrary, List.getElem?_eq_getElem hn, Option.some_bind,
      List.getElem?_eq_getElem (show itck < (lib[noisechan]).length by omega), hr,
      Option.map_some']

theorem noiseFactLoop_two_rows {α : Type} [LinearOrderedField α] [FloorRing α]
    (rnd : α → α) (fASICGain : α) (col : Nat) (row0 row1 : List α)
    (h0 : col < row0.length) (h1 : col < row1.length) :
    noiseFactLoop rnd fASICGain col [row0, row1] 0 [0, 0] =
      Except.ok [rnd (row0.getD col 0 * rnd (fASICGain / rnd (47 / 10))),
        rnd (row1.getD col 0 * rnd (fASICGain / rnd (47 / 10)))] := by
  simp [noiseFactLoop, List.getElem?_eq_getElem h0, List.getElem?_eq_getElem h1,
    List.getD_eq_getElem?_getD]

theorem shapingTimeOrder_eq_none {α : Type} [LinearOrderedField α] [FloorRing α]
    (t : α) :
    shapingTimeOrder t = none ↔ ¬ (t = 1 / 2 ∨ t = 1 ∨ t = 2 ∨ t = 3) := by
  unfold shapingTimeOrder
  constructor
  · intro h
    split at h
    · exact absurd h (by simp)
    · split at h
      · exact absurd h (by simp)
      · split at h
        · exact absurd h (by simp)
        · split at h
          · exact absurd h (by simp)
          · rintro (h' | h' | h' | h') <;> contradiction
  · intro h
    rw [if_neg (fun h' => h (Or.inl h')), if_neg (fun h' => h (Or.inr (Or.inl h'))),
      if_neg (fun h' => h (Or.inr (Or.inr (Or.inl h')))),
      if_neg (fun h' => h (Or.inr (Or.inr (Or.inr h'))))]

theorem shapingTimeOrder_col {α : Type} [LinearOrderedField α] [FloorRing α]
    (t : α) (col : Nat)
    (h : col = 0 ∧ t = 1 / 2 ∨ col = 1 ∧ t = 1 ∨ col = 2 ∧ t = 2 ∨ col = 3 ∧ t = 3) :
    shapingTimeOrder t = some col := by
  unfold shapingTimeOrder
  rcases h with ⟨rfl, rfl⟩ | ⟨rfl, rfl⟩ | ⟨rfl, rfl⟩ | ⟨rfl, rfl⟩
  · simp
  · norm_num
  · norm_num
  · norm_num

/-- C5: given libraries with `N > 0` entries of at least as many ticks as the
trace and a noise-factor table of two rows (induction, collection) of at least
four columns, `addNoise` fails with the configuration error if and only if the
shaping time is not one of 0.5, 1.0, 2.0, 3.0; when it is one of them,
`addNoise` returns status 0 and draws the white noise with the factors of
column 0, 1, 2, 3 respectively of the table, each scaled by `asicGain / 4.7`. -/
theorem addNoise_shaping_time {α : Type} [LinearOrderedField α] [FloorRing α]
    (rnd toSig : α → α)
    (hmono : ∀ a b : α, a ≤ b → rnd a ≤ rnd b)
    (hexact : ∀ k : Nat, k ≤ 17179869184 → rnd ((k : α) / 4) = (k : α) / 4)
    (svc : Service α) (view : View_t) (fASICGain fShapingTime : α) (row0 row1 : List α)
    (u : α) (fire : α → Nat → α) (sigs : List α)
    (hN0 : 0 < svc.fNoiseArrayPoints) (hN1 : svc.fNoiseArrayPoints < 4294967296)
    (hlib : ∀ v, (viewLibrary svc v).length = svc.fNoiseArrayPoints)
    (hlen : ∀ v, ∀ w ∈ viewLibrary svc v, sigs.length ≤ w.length)
    (h0 : 4 ≤ row0.length) (h1 : 4 ≤ row1.length) (hu0 : 0 ≤ u) (hu1 : u < 1) :
    (addNoise rnd toSig svc view fASICGain fShapingTime [row0, row1] u fire sigs =
        Except.error NoiseError.shapingTime ↔
      ¬ (fShapingTime = 1 / 2 ∨ fShapingTime = 1 ∨ fShapingTime = 2 ∨ fShapingTime = 3)) ∧
    ∀ col, (col = 0 ∧ fShapingTime = 1 / 2 ∨ col = 1 ∧ fShapingTime = 1 ∨
        col = 2 ∧ fShapingTime = 2 ∨ col = 3 ∧ fShapingTime = 3) →
      ∃ sigs1, addLibrary rnd toSig (viewLibrary svc view) (chooseNoiseChan rnd svc u) 0 sigs =
          some sigs1 ∧
        addNoise rnd toSig svc view fASICGain fShapingTime [row0, row1] u fire sigs =
          Except.ok (0, addGauss rnd toSig fire view
            (rnd (row0.getD col 0 * rnd (fASICGain / rnd (47 / 10))))
            (rnd (row1.getD col 0 * rnd (fASICGain / rnd (47 / 10)))) 0 sigs1) := by
  have hc := chooseNoiseChan_lt rnd hmono hexact svc hN0 hN1 u hu0 hu1
  obtain ⟨sigs1, hs1⟩ := addLibrary_isSome rnd toSig (viewLibrary svc view)
    (chooseNoiseChan rnd svc u) (by rw [hlib]; exact hc) sigs 0
    (fun w hw => by have := hlen view w hw; omega)
  constructor
  · constructor
    · intro h
      rw [← shapingTimeOrder_eq_none]
      unfold addNoise at h
      simp only [hs1] at h
      cases hst : shapingTimeOrder fShapingTime with
      | none => rfl
      | some col =>
        exfalso
        rw [hst] at h
        have hcol : col < 4 := by
          unfold shapingTimeOrder at hst
          split at hst
          · have := Option.some.inj hst; omega
          · split at hst
            · have := Option.some.inj hst; omega
            · split at hst
              · have := Option.some.inj hst; omega
              · split at hst
                · have := Option.some.inj hst; omega
                · exact absurd hst (by simp)
        simp only [noiseFactLoop_two_rows rnd fASICGain col row0 row1 (by omega) (by omega)] at h
        exact absurd h (by simp)
    · intro h
      unfold addNoise
      simp only [hs1, (shapingTimeOrder_eq_none fShapingTime).mpr h]
  · intro col hcol
    refine ⟨sigs1, hs1, ?_⟩
    have hlt : col < 4 := by
      rcases hcol with ⟨h, -⟩ | ⟨h, -⟩ | ⟨h, -⟩ | ⟨h, -⟩ <;> omega
    unfold addNoise
    simp only [hs1, shapingTimeOrder_col fShapingTime col hcol,
      noiseFactLoop_two_rows rnd fASICGain col row0 row1 (by omega) (by omega)]
    rfl

/-- In exact arithmetic the legacy choice is `nearbyint (u * ((N - 1) + 1/10))`. -/
theorem oldNoiseIndex_exact (N : Nat) (h0 : 0 < N) (h1 : N < 4294967296) (u : ℝ)
    (hu0 : 0 ≤ u) (hu1 : u < 1) :
    0 ≤ nearbyint (u * ((N : ℝ) - 1 + 1 / 10)) ∧
    nearbyint (u * ((N : ℝ) - 1 + 1 / 10)) ≤ ((N - 1 : Nat) : Int) ∧
    oldNoiseIndex (fun x : ℝ => x) N u = (nearbyint (u * ((N : ℝ) - 1 + 1 / 10))).toNat := by
  have hN : (1 : ℝ) ≤ (N : ℝ) := by exact_mod_cast h0
  have hcast : (((N - 1 : Nat) : Int) : ℝ) = (N : ℝ) - 1 := by
    rw [Int.cast_natCast, Nat.cast_sub h0, Nat.cast_one]
  have hs : 0 ≤ (N : ℝ) - 1 + 1 / 10 := by linarith
  have hp0 : 0 ≤ u * ((N : ℝ) - 1 + 1 / 10) := mul_nonneg hu0 hs
  have hp1 : u * ((N : ℝ) - 1 + 1 / 10) ≤ (N : ℝ) - 1 + 1 / 10 := by
    have := mul_le_mul_of_nonneg_right hu1.le hs
    linarith
  have hge : (0 : Int) ≤ nearbyint (u * ((N : ℝ) - 1 + 1 / 10)) :=
    le_nearbyint _ 0 (by push_cast; linarith)
  have hle : nearbyint (u * ((N : ℝ) - 1 + 1 / 10)) ≤ ((N - 1 : Nat) : Int) :=
    nearbyint_le _ _ (by rw [hcast]; linarith)
  refine ⟨hge, hle, ?_⟩
  unfold oldNoiseIndex
  beta_reduce
  rw [toUInt_last N h0 h1, Nat.cast_sub h0, Nat.cast_one, one_mul, toUInt_of_lt _ (by omega)]

theorem oldNoiseIndex_of_near (N : Nat) (h0 : 0 < N) (h1 : N < 4294967296) (u : ℝ)
    (hu0 : 0 ≤ u) (hu1 : u < 1) (k : Nat)
    (hlo : (k : ℝ) - 1 / 2 < u * ((N : ℝ) - 1 + 1 / 10))
    (hhi : u * ((N : ℝ) - 1 + 1 / 10) < (k : ℝ) + 1 / 2) :
    oldNoiseIndex (fun x : ℝ => x) N u = k := by
  obtain ⟨-, -, he⟩ := oldNoiseIndex_exact N h0 h1 u hu0 hu1
  have h2 : nearbyint (u * ((N : ℝ) - 1 + 1 / 10)) ≤ (k : Int) :=
    nearbyint_le _ _ (by push_cast; exact hhi)
  have h3 : (k : Int) ≤ nearbyint (u * ((N : ℝ) - 1 + 1 / 10)) :=
    le_nearbyint _ _ (by push_cast; exact hlo)
  rw [he]; omega

theorem near_of_oldNoiseIndex (N : Nat) (h0 : 0 < N) (h1 : N < 4294967296) (u : ℝ)
    (hu0 : 0 ≤ u) (hu1 : u < 1) (k : Nat) (hk : oldNoiseIndex (fun x : ℝ => x) N u = k) :
    (k : ℝ) - 1 / 2 ≤ u * ((N : ℝ) - 1 + 1 / 10) ∧
    u * ((N : ℝ) - 1 + 1 / 10) ≤ (k : ℝ) + 1 / 2 := by
  obtain ⟨hge, -, he⟩ := oldNoiseIndex_exact N h0 h1 u hu0 hu1
  rw [he] at hk
  have hz : nearbyint (u * ((N : ℝ) - 1 + 1 / 10)) = (k : Int) := by omega
  constructor
  · by_contra hc
    have := nearbyint_le (u * ((N : ℝ) - 1 + 1 / 10)) ((k : Int) - 1)
      (by push_cast; linarith [not_le.mp hc])
    omega
  · by_contra hc
    have := le_nearbyint (u * ((N : ℝ) - 1 + 1 / 10)) ((k : Int) + 1)
      (by push_cast; linarith [not_le.mp hc])
    omega

/-- Length of the set of draws that give index `k`, once the set is known to lie
between an open and a closed interval with the same ends. -/
theorem volume_of_between (S : Set ℝ) (a b : ℝ) (h1 : Set.Ioo a b ⊆ S)
    (h2 : S ⊆ Set.Icc a b) : MeasureTheory.volume S = ENNReal.ofReal (b - a) := by
  apply le_antisymm
  · calc MeasureTheory.volume S ≤ MeasureTheory.volume (Set.Icc a b) :=
        MeasureTheory.measure_mono h2
      _ = ENNReal.ofReal (b - a) := Real.volume_Icc
  · calc ENNReal.ofReal (b - a) = MeasureTheory.volume (Set.Ioo a b) := Real.volume_Ioo.symm
      _ ≤ MeasureTheory.volume S := MeasureTheory.measure_mono h1

/-- C9: for every library size `N ≥ 3` (an `unsigned int`), with
`s = (N-1) + 0.1` and the draw `u` ranging over `[0, 1)`, the legacy policy
`index = nearbyint(u * s)`, in exact arithmetic, selects index 0 on a set of
draws of length `0.5/s`, each interior index `k` (`0 < k < N-1`) on a set of
length `1/s`, and the last index `N-1` on a set of length `0.6/s`. -/
theorem legacy_index_weights (N : Nat) (h3 : 3 ≤ N) (h32 : N < 4294967296) :
    MeasureTheory.volume
        {u : ℝ | 0 ≤ u ∧ u < 1 ∧ oldNoiseIndex (fun x : ℝ => x) N u = 0} =
      ENNReal.ofReal ((1 / 2) / ((N : ℝ) - 1 + 1 / 10)) ∧
    (∀ k : Nat, 0 < k → k < N - 1 →
      MeasureTheory.volume
          {u : ℝ | 0 ≤ u ∧ u < 1 ∧ oldNoiseIndex (fun x : ℝ => x) N u = k} =
        ENNReal.ofReal (1 / ((N : ℝ) - 1 + 1 / 10))) ∧
    MeasureTheory.volume
        {u : ℝ | 0 ≤ u ∧ u < 1 ∧ oldNoiseIndex (fun x : ℝ => x) N u = N - 1} =
      ENNReal.ofReal ((6 / 10) / ((N : ℝ) - 1 + 1 / 10)) := by
  have hN : (3 : ℝ) ≤ (N : ℝ) := by exact_mod_cast h3
  have hs : (0 : ℝ) < (N : ℝ) - 1 + 1 / 10 := by linarith
  have h0 : 0 < N := by omega
  refine ⟨?_, fun k hk0 hk1 => ?_, ?_⟩
  · rw [volume_of_between _ 0 ((1 / 2) / ((N : ℝ) - 1 + 1 / 10)), sub_zero]
    · intro u hu
      obtain ⟨hu0, hu1⟩ := hu
      have hmul : u * ((N : ℝ) - 1 + 1 / 10) < 1 / 2 := (lt_div_iff₀ hs).mp hu1
      have hlt1 : u < 1 := by
        by_contra hc
        have := mul_le_mul_of_nonneg_right (not_lt.mp hc) hs.le
        linarith
      refine ⟨hu0.le, hlt1, oldNoiseIndex_of_near N h0 h32 u hu0.le hlt1 0 ?_ ?_⟩
      · have := mul_pos hu0 hs
        push_cast; linarith
      · push_cast; linarith
    · intro u hu
      obtain ⟨hu0, hu1, hk⟩ := hu
      obtain ⟨-, hhi⟩ := near_of_oldNoiseIndex N h0 h32 u hu0 hu1 0 hk
      push_cast at hhi
      exact ⟨hu0, (le_div_iff₀ hs).mpr (by linarith)⟩
  · have hkr : (1 : ℝ) ≤ (k : ℝ) := by exact_mod_cast hk0
    have hkN : (k : ℝ) + 2 ≤ (N : ℝ) := by
      have : k + 2 ≤ N := by omega
      exact_mod_cast this
    rw [volume_of_between _ (((k : ℝ) - 1 / 2) / ((N : ℝ) - 1 + 1 / 10))
      (((k : ℝ) + 1 / 2) / ((N : ℝ) - 1 + 1 / 10))]
    · rw [← sub_div]; congr 2; ring
    · intro u hu
      obtain ⟨hu0, hu1⟩ := hu
      have hlo : (k : ℝ) - 1 / 2 < u * ((N : ℝ) - 1 + 1 / 10) := (div_lt_iff₀ hs).mp hu0
      have hhi : u * ((N : ℝ) - 1 + 1 / 10) < (k : ℝ) + 1 / 2 := (lt_div_iff₀ hs).mp hu1
      have hpos : 0 ≤ u := by
        by_contra hc
        have := mul_neg_of_neg_of_pos (not_le.mp hc) hs
        linarith
      have hlt1 : u < 1 := by
        by_contra hc
        have := mul_le_mul_of_nonneg_right (not_lt.mp hc) hs.le
        linarith
      exact ⟨hpos, hlt1, oldNoiseIndex_of_near N h0 h32 u hpos hlt1 k hlo hhi⟩
    · intro u hu
      obtain ⟨hu0, hu1, hk⟩ := hu
      obtain ⟨hlo, hhi⟩ := near_of_oldNoiseIndex N h0 h32 u hu0 hu1 k hk
      exact ⟨(div_le_iff₀ hs).mpr hlo, (le_div_iff₀ hs).mpr hhi⟩
  · have hcast : (((N - 1 : Nat) : ℝ)) = (N : ℝ) - 1 := by
      rw [Nat.cast_sub h0, Nat.cast_one]
    rw [volume_of_between _ (((N : ℝ) - 3 / 2) / ((N : ℝ) - 1 + 1 / 10)) 1]
    · congr 1
      rw [eq_div_iff hs.ne', sub_mul, div_mul_cancel₀ _ hs.ne']; ring
    · intro u hu
      obtain ⟨hu0, hu1⟩ := hu
      have hlo : (N : ℝ) - 3 / 2 < u * ((N : ℝ) - 1 + 1 / 10) := (div_lt_iff₀ hs).mp hu0
      have hpos : 0 ≤ u := by
        by_contra hc
        have := mul_neg_of_neg_of_pos (not_le.mp hc) hs
        linarith
      have hhi : u * ((N : ℝ) - 1 + 1 / 10) < (N : ℝ) - 1 + 1 / 10 := by
        have := mul_lt_mul_of_pos_right hu1 hs
        linarith
      exact ⟨hpos, hu1, oldNoiseIndex_of_near N h0 h32 u hpos hu1 (N - 1)
        (by rw [hcast]; linarith) (by rw [hcast]; linarith)⟩
    · intro u hu
      obtain ⟨hu0, hu1, hk⟩ := hu
      obtain ⟨hlo, -⟩ := near_of_oldNoiseIndex N h0 h32 u hu0 hu1 (N - 1) hk
      rw [hcast] at hlo
      exact ⟨(div_le_iff₀ hs).mpr (by linarith), hu1.le⟩

/-- Witness for C9: ten waveforms, indices 0 and 9 against indices 1 to 8. -/
theorem legacy_index_weights_witness :
    MeasureTheory.volume
        {u : ℝ | 0 ≤ u ∧ u < 1 ∧ oldNoiseIndex (fun x : ℝ => x) 10 u = 0} =
      ENNReal.ofReal ((1 / 2) / (((10 : Nat) : ℝ) - 1 + 1 / 10)) ∧
    (∀ k : Nat, 0 < k → k < 10 - 1 →
      MeasureTheory.volume
          {u : ℝ | 0 ≤ u ∧ u < 1 ∧ oldNoiseIndex (fun x : ℝ => x) 10 u = k} =
        ENNReal.ofReal (1 / (((10 : Nat) : ℝ) - 1 + 1 / 10))) ∧
    MeasureTheory.volume
        {u : ℝ | 0 ≤ u ∧ u < 1 ∧ oldNoiseIndex (fun x : ℝ => x) 10 u = 10 - 1} =
      ENNReal.ofReal ((6 / 10) / (((10 : Nat) : ℝ) - 1 + 1 / 10)) :=
  legacy_index_weights 10 (by decide) (by decide)

theorem demoService_length (v : View_t) :
    (viewLibrary demoService v).length = demoService.fNoiseArrayPoints := by
  cases v <;> rfl

theorem demoService_ticks (v : View_t) :
    ∀ w ∈ viewLibrary demoService v, ([0, 0, 0] : List ℚ).length ≤ w.length := by
  intro w hw
  cases v <;>
  · rw [List.eq_of_mem_replicate hw]
    decide

/-- Witness for C5: exact arithmetic, a collection channel with shaping time 2. -/
theorem addNoise_shaping_time_witness :
    (addNoise (fun x : ℚ => x) (fun x : ℚ => x) demoService View_t.kZ (47 / 10) 2
        [[1, 2, 3, 4], [5, 6, 7, 8]] (1 / 2) (fun sigma _ => sigma) [0, 0, 0] =
        Except.error NoiseError.shapingTime ↔
      ¬ ((2 : ℚ) = 1 / 2 ∨ (2 : ℚ) = 1 ∨ (2 : ℚ) = 2 ∨ (2 : ℚ) = 3)) ∧
    ∀ col, (col = 0 ∧ (2 : ℚ) = 1 / 2 ∨ col = 1 ∧ (2 : ℚ) = 1 ∨
        col = 2 ∧ (2 : ℚ) = 2 ∨ col = 3 ∧ (2 : ℚ) = 3) →
      ∃ sigs1, addLibrary (fun x : ℚ => x) (fun x : ℚ => x) (viewLibrary demoService View_t.kZ)
          (chooseNoiseChan (fun x : ℚ => x) demoService (1 / 2)) 0 [0, 0, 0] = some sigs1 ∧
        addNoise (fun x : ℚ => x) (fun x : ℚ => x) demoService View_t.kZ (47 / 10) 2
          [[1, 2, 3, 4], [5, 6, 7, 8]] (1 / 2) (fun sigma _ => sigma) [0, 0, 0] =
          Except.ok (0, addGauss (fun x : ℚ => x) (fun x : ℚ => x) (fun sigma _ => sigma)
            View_t.kZ
            (([1, 2, 3, 4] : List ℚ).getD col 0 * ((47 / 10) / (47 / 10)))
            (([5, 6, 7, 8] : List ℚ).getD col 0 * ((47 / 10) / (47 / 10))) 0 sigs1) :=
  addNoise_shaping_time (fun x : ℚ => x) (fun x : ℚ => x) (fun _ _ h => h) (fun _ _ => rfl)
    demoService View_t.kZ (47 / 10) 2 [1, 2, 3, 4] [5, 6, 7, 8] (1 / 2) (fun sigma _ => sigma)
    [0, 0, 0] (by decide) (by decide) demoService_length demoService_ticks (by decide)
    (by decide) (by norm_num) (by norm_num)

end ExpoWhiteChannelNoiseService
